import Mathlib

/-!
# go-mongo-sync: the synchronizer (`sync/synchronizer.go`)

A shallow embedding of `NewSynchronizer`, `Run`, `initialSync`, `oplogSync`,
`syncDatabases`, `syncDatabase` and `write_document`.

* Calls into the MongoDB driver and into the parts of the repository that live
  in other files (`utils.GetOptime`, `NewOplogReplayer`, `replayer.Run`) are
  answered by a `World` of oracles; every call is recorded in a trace of
  `Event`s, in program order.
* The `*Synchronizer` receiver is threaded through every method as part of an
  explicit `State`.
* The worker goroutines of `syncDatabase` are a small-step machine over the
  two channels `docs` and `done`; which goroutine moves next is chosen by a
  schedule taken from the `World`, and every interleaving is the run under
  some schedule (`copyCollection_any_interleaving`).
* A call that never returns (a copy whose goroutines are all blocked, a
  `replayer.Run()` that runs for ever) ends in `Outcome.noReturn`.
* Left out, as they change nothing the program reads afterwards: the
  `log.Printf` / `log.Println` calls, the progress counter `n` and the value
  `total`, which only feed the log, the timeout and mode settings of the two
  sessions, and `Session.Clone()` in the workers (the clone talks to the same
  destination).
* Strings are sequences of characters; `strings.Index` is only ever compared
  with 0, which does not depend on counting bytes or characters.
-/

namespace Sync

/-! ## Data model -/

/-- Go `error` values, by message. -/
abbrev Error := String

/-- Handle of an `*mgo.Session`; `0` stands for the nil pointer of a fresh struct. -/
abbrev Session := Nat

/-- A `bson.M` document; the synchronizer never looks inside one. -/
abbrev Doc := Nat

/-- An `mgo.Index` definition; the synchronizer never looks inside one. -/
abbrev Index := String

/-- The type `bson.MongoTimestamp` (an int64 that is only stored and passed on). -/
abbrev Optime := Int

/-- The fields of `Config` that the synchronizer reads. -/
structure Config where
  From : String
  To : String
  OplogOnly : Bool
  deriving DecidableEq, Repr

/-- The struct `Synchronizer`. -/
structure Synchronizer where
  config : Config
  srcSession : Session
  dstSession : Session
  optime : Optime
  deriving DecidableEq, Repr

/-- One observable action of the program. -/
inductive Event where
  | dial (addr : String) (ok : Bool)
  | getOptime (s : Session) (ok : Bool)
  | databaseNames (s : Session) (err : Option Error)
  | collectionNames (s : Session) (db : String) (err : Option Error)
  | indexes (s : Session) (db coll : String) (err : Option Error)
  | ensureIndex (s : Session) (db coll : String) (idx : Index) (err : Option Error)
  | spawn (id : Nat) (db coll : String)
  | iter (s : Session) (db coll : String)
  | count (s : Session) (db coll : String)
  | next (s : Session) (db coll : String) (doc : Option Doc)
  | cursorClose (s : Session) (db coll : String)
  | send (db coll : String) (doc : Doc)
  | insert (id : Nat) (s : Session) (db coll : String) (doc : Doc) (err : Option Error)
  | newOplogReplayer (src dst : String) (optime : Optime) (ok : Bool)
  | replayerRun
  deriving DecidableEq, Repr

/-- The environment: what every external call answers. -/
structure World where
  /-- Answer of `mgo.DialWithTimeout`; the first argument is the number of events so far. -/
  dial : Nat → String → Except Error Session
  /-- Answer of `utils.GetOptime` (defined in another file of the repository). -/
  getOptime : Session → Except Error Optime
  /-- Answer of `Session.DatabaseNames`. -/
  databaseNames : Session → Except Error (List String)
  /-- Answer of `Database.CollectionNames`. -/
  collectionNames : Session → String → Except Error (List String)
  /-- Answer of `Collection.Indexes`. -/
  indexes : Session → String → String → Except Error (List Index)
  /-- Answer of `Collection.EnsureIndex`; `none` is a nil error. -/
  ensureIndex : Session → String → String → Index → Option Error
  /-- The documents that `Find(nil).Snapshot().Iter()` yields before `Next` is false. -/
  find : Session → String → String → List Doc
  /-- Answer of `Collection.Insert`; the first argument is the number of events so far. -/
  insert : Nat → Session → String → String → Doc → Option Error
  /-- Value of `runtime.NumCPU()`. -/
  numCPU : Nat
  /-- The Go runtime reports at least one usable CPU. -/
  numCPU_pos : 0 < numCPU
  /-- Scheduling choices for the goroutines copying one collection. -/
  sched : String → String → List Nat
  /-- Answer of `NewOplogReplayer` (another file of the repository): is the result non-nil? -/
  newOplogReplayer : String → String → Optime → Bool
  /-- Does `replayer.Run()` (another file of the repository) return? -/
  replayerRunReturns : Bool

/-- The receiver `p` together with the trace of events so far. -/
structure State where
  sync : Synchronizer
  trace : List Event
  deriving DecidableEq, Repr

/-- Record one event. -/
def State.emit (s : State) (e : Event) : State :=
  { s with trace := s.trace ++ [e] }

/-- How a call ends: it returns an `error` (`none` is nil), or it never returns. -/
inductive Outcome where
  | returned (err : Option Error)
  | noReturn
  deriving DecidableEq, Repr

/-! ## `strings.Index` -/

/-- Search for `sub` in `l`, `i` being the position of `l` in the whole string. -/
def indexFrom (sub : List Char) : List Char → Nat → Int
  | [], i => if sub.isPrefixOf [] then (i : Int) else -1
  | c :: t, i => if sub.isPrefixOf (c :: t) then (i : Int) else indexFrom sub t (i + 1)

/-- Go `strings.Index(s, substr)`: the position of the first instance of `substr` in `s`,
or `-1` when there is none. -/
def stringsIndex (s substr : String) : Int :=
  indexFrom substr.data s.data 0

/-! ## `NewSynchronizer` -/

/-- Go `NewSynchronizer(config)`: `none` is the nil result. -/
def NewSynchronizer (w : World) (config : Config) (tr : List Event) :
    Option Synchronizer × List Event :=
  let p : Synchronizer := { config := config, srcSession := 0, dstSession := 0, optime := 0 }
  match w.dial tr.length p.config.From with
  | .error _ => (none, tr ++ [Event.dial p.config.From false])
  | .ok s =>
    let p := { p with srcSession := s }
    let tr := tr ++ [Event.dial p.config.From true]
    match w.dial tr.length p.config.To with
    | .error _ => (none, tr ++ [Event.dial p.config.To false])
    | .ok s =>
      let p := { p with dstSession := s }
      let tr := tr ++ [Event.dial p.config.To true]
      match w.getOptime p.srcSession with
      | .ok optime => (some { p with optime := optime }, tr ++ [Event.getOptime p.srcSession true])
      | .error _ => (none, tr ++ [Event.getOptime p.srcSession false])

/-! ## The goroutines of one collection copy -/

/-- Where a `write_document` goroutine stands. -/
inductive WState where
  /-- At the head of `for doc := range docs`. -/
  | idle
  /-- Received `d`, about to call `Insert`. -/
  | holding (d : Doc)
  /-- Sent on `done` and returned. -/
  | exited
  deriving DecidableEq, Repr

/-- Where the goroutine running `syncDatabase` stands inside one collection copy. -/
inductive MainPc where
  /-- At the head of the `for` loop that reads the cursor. -/
  | producing
  /-- After `cursor.Next` returned false, before `cursor.Close()`. -/
  | closing
  /-- Before `close(docs)`. -/
  | closingDocs
  /-- In the loop `for i := 0; i < nworkers; i++` that receives from `done`, at the current `i`. -/
  | waiting (i : Nat)
  deriving DecidableEq, Repr

/-- The shared state of one collection copy. -/
structure CopyState where
  /-- The receiver and the trace. -/
  st : State
  /-- What the cursor has not yielded yet. -/
  cursor : List Doc
  /-- The variable `doc` after a successful `cursor.Next`, before `docs <- doc`. -/
  sending : Option Doc
  /-- The buffer of channel `docs` (capacity 10000). -/
  docs : List Doc
  /-- Has `close(docs)` run? -/
  closed : Bool
  /-- The number of values in the buffer of channel `done` (capacity `nworkers`). -/
  done : Nat
  /-- The goroutines started by `go p.write_document(i, ...)`, by `i`. -/
  workers : List WState
  /-- The main goroutine. -/
  pc : MainPc
  deriving DecidableEq, Repr

/-- A goroutine. -/
inductive Actor where
  | main
  | worker (id : Nat)
  deriving DecidableEq, Repr

/-- One step of the main goroutine between starting the workers and leaving the
wait loop (source lines 144-163); `none` when it is blocked or past the loop. -/
def mainStep (db coll : String) (nworkers : Nat) (c : CopyState) : Option CopyState :=
  match c.pc with
  | .producing =>
    match c.sending with
    | some d =>
      if c.docs.length < 10000 then
        some { c with docs := c.docs ++ [d], sending := none,
                      st := c.st.emit (Event.send db coll d) }
      else none
    | none =>
      match c.cursor with
      | d :: rest =>
        some { c with cursor := rest, sending := some d,
                      st := c.st.emit (Event.next c.st.sync.srcSession db coll (some d)) }
      | [] =>
        some { c with pc := .closing,
                      st := c.st.emit (Event.next c.st.sync.srcSession db coll none) }
  | .closing =>
    some { c with pc := .closingDocs,
                  st := c.st.emit (Event.cursorClose c.st.sync.srcSession db coll) }
  | .closingDocs => some { c with closed := true, pc := .waiting 0 }
  | .waiting i =>
    if i < nworkers then
      if 0 < c.done then some { c with done := c.done - 1, pc := .waiting (i + 1) } else none
    else none

/-- One step of goroutine `write_document(id, dbname, collname, docs, done)`;
`none` when it is blocked or has returned. -/
def write_document (w : World) (id : Nat) (db coll : String) (nworkers : Nat)
    (c : CopyState) : Option CopyState :=
  match c.workers.get? id with
  | none => none
  | some .idle =>
    match c.docs with
    | d :: rest => some { c with docs := rest, workers := c.workers.set id (.holding d) }
    | [] =>
      if c.closed then
        if c.done < nworkers then
          some { c with done := c.done + 1, workers := c.workers.set id .exited }
        else none
      else none
  | some (.holding d) =>
    let err := w.insert c.st.trace.length c.st.sync.dstSession db coll d
    some { c with st := c.st.emit (Event.insert id c.st.sync.dstSession db coll d err),
                  workers := c.workers.set id .idle }
  | some .exited => none

/-- One step of the chosen goroutine. -/
def step (w : World) (db coll : String) (nworkers : Nat) (c : CopyState) :
    Actor → Option CopyState
  | .main => mainStep db coll nworkers c
  | .worker id => write_document w id db coll nworkers c

/-- All goroutines of a collection copy. -/
def actors (nworkers : Nat) : List Actor :=
  Actor.main :: (List.range nworkers).map Actor.worker

/-- The goroutines that can move. -/
def enabled (w : World) (db coll : String) (nworkers : Nat) (c : CopyState) : List Actor :=
  (actors nworkers).filter fun a => (step w db coll nworkers c a).isSome

/-- Steps a worker still has to take before it returns, its pending receives apart. -/
def WState.cost : WState → Nat
  | .idle => 1
  | .holding _ => 2
  | .exited => 0

/-- Steps the main goroutine still has to take, reads and sends apart. -/
def MainPc.cost (nworkers : Nat) : MainPc → Nat
  | .producing => 3 + nworkers
  | .closing => 2 + nworkers
  | .closingDocs => 1 + nworkers
  | .waiting i => nworkers - i

/-- The number of steps left in a collection copy. -/
def CopyState.measure (nworkers : Nat) (c : CopyState) : Nat :=
  4 * c.cursor.length + (if c.sending.isSome then 3 else 0) + 2 * c.docs.length
    + (c.workers.map WState.cost).sum + c.pc.cost nworkers

/-- Run the goroutines until none can move: at each step the next number of the
schedule picks one of the goroutines that can. -/
def runCopy (w : World) (db coll : String) (nworkers : Nat) :
    Nat → List Nat → CopyState → CopyState
  | 0, _, c => c
  | fuel + 1, sched, c =>
    match enabled w db coll nworkers c with
    | [] => c
    | a :: as =>
      match step w db coll nworkers c ((a :: as).getD (sched.headD 0 % (as.length + 1)) a) with
      | some c2 => runCopy w db coll nworkers fuel sched.tail c2
      | none => c

/-- The loop `for i := 0; i < nworkers; i++` that runs `go p.write_document(i, ...)`,
with `k` rounds left at counter `i`. -/
def spawnWorkers (db coll : String) : Nat → Nat → State → State
  | 0, _, s => s
  | k + 1, i, s => spawnWorkers db coll k (i + 1) (s.emit (Event.spawn i db coll))

/-- The state in which the main goroutine enters its read loop (source lines 132-142). -/
def copyInit (w : World) (db coll : String) (s : State) : CopyState :=
  let s1 := spawnWorkers db coll w.numCPU 0 s
  let s2 := (s1.emit (Event.iter s.sync.srcSession db coll)).emit
    (Event.count s.sync.srcSession db coll)
  { st := s2, cursor := w.find s.sync.srcSession db coll, sending := none, docs := [],
    closed := false, done := 0, workers := List.replicate w.numCPU WState.idle,
    pc := MainPc.producing }

/-- Has the main goroutine left the wait loop? -/
def CopyState.finished (nworkers : Nat) (c : CopyState) : Bool :=
  match c.pc with
  | .waiting i => decide (nworkers ≤ i)
  | _ => false

/-- The document copy of one collection (source lines 132-163). -/
def copyCollection (w : World) (db coll : String) (s : State) : CopyState :=
  let c0 := copyInit w db coll s
  runCopy w db coll w.numCPU (c0.measure w.numCPU) (w.sched db coll) c0

/-! ## `syncDatabase`, `syncDatabases`, `initialSync`, `oplogSync`, `Run` -/

/-- The loop `for _, index := range indexes` of `syncDatabase`. -/
def ensureIndexes (w : World) (db coll : String) : List Index → State → Option Error × State
  | [], s => (none, s)
  | index :: rest, s =>
    match w.ensureIndex s.sync.dstSession db coll index with
    | some err => (some err, s.emit (Event.ensureIndex s.sync.dstSession db coll index (some err)))
    | none =>
      ensureIndexes w db coll rest
        (s.emit (Event.ensureIndex s.sync.dstSession db coll index none))

/-- The loop `for _, collname := range collnames` of `syncDatabase`. -/
def syncCollections (w : World) (db : String) : List String → State → Outcome × State
  | [], s => (Outcome.returned none, s)
  | collname :: rest, s =>
    if stringsIndex collname "system." == 0 then syncCollections w db rest s
    else
      match w.indexes s.sync.srcSession db collname with
      | .error err =>
        (Outcome.returned (some err),
          s.emit (Event.indexes s.sync.srcSession db collname (some err)))
      | .ok indexes =>
        match ensureIndexes w db collname indexes
            (s.emit (Event.indexes s.sync.srcSession db collname none)) with
        | (some err, s1) => (Outcome.returned (some err), s1)
        | (none, s1) =>
          let c := copyCollection w db collname s1
          if c.finished w.numCPU then syncCollections w db rest c.st
          else (Outcome.noReturn, c.st)

/-- Go `(p *Synchronizer) syncDatabase(dbname)`. -/
def syncDatabase (w : World) (dbname : String) (s : State) : Outcome × State :=
  match w.collectionNames s.sync.srcSession dbname with
  | .error err =>
    (Outcome.returned (some err),
      s.emit (Event.collectionNames s.sync.srcSession dbname (some err)))
  | .ok collnames =>
    syncCollections w dbname collnames
      (s.emit (Event.collectionNames s.sync.srcSession dbname none))

/-- The loop `for _, dbname := range dbnames` of `syncDatabases`. -/
def syncDatabasesLoop (w : World) : List String → State → Outcome × State
  | [], s => (Outcome.returned none, s)
  | dbname :: rest, s =>
    if dbname != "local" && dbname != "admin" then
      match syncDatabase w dbname s with
      | (Outcome.returned _, s1) => syncDatabasesLoop w rest s1
      | (Outcome.noReturn, s1) => (Outcome.noReturn, s1)
    else syncDatabasesLoop w rest s

/-- Go `(p *Synchronizer) syncDatabases()`. -/
def syncDatabases (w : World) (s : State) : Outcome × State :=
  match w.databaseNames s.sync.srcSession with
  | .error err =>
    (Outcome.returned (some err), s.emit (Event.databaseNames s.sync.srcSession (some err)))
  | .ok dbnames =>
    syncDatabasesLoop w dbnames (s.emit (Event.databaseNames s.sync.srcSession none))

/-- Go `(p *Synchronizer) initialSync()`: the result of `syncDatabases` is dropped. -/
def initialSync (w : World) (s : State) : Outcome × State :=
  match syncDatabases w s with
  | (Outcome.returned _, s1) => (Outcome.returned none, s1)
  | (Outcome.noReturn, s1) => (Outcome.noReturn, s1)

/-- Go `(p *Synchronizer) oplogSync()`. -/
def oplogSync (w : World) (s : State) : Outcome × State :=
  let ok := w.newOplogReplayer s.sync.config.From s.sync.config.To s.sync.optime
  let s1 := s.emit (Event.newOplogReplayer s.sync.config.From s.sync.config.To s.sync.optime ok)
  if !ok then (Outcome.returned (some "NewOplogReplayer failed"), s1)
  else if w.replayerRunReturns then (Outcome.returned none, s1.emit Event.replayerRun)
  else (Outcome.noReturn, s1.emit Event.replayerRun)

/-- Go `(p *Synchronizer) Run()`. -/
def Run (w : World) (s : State) : Outcome × State :=
  let r :=
    if !s.sync.config.OplogOnly then initialSync w s else (Outcome.returned none, s)
  match r with
  | (Outcome.returned (some err), s1) => (Outcome.returned (some err), s1)
  | (Outcome.noReturn, s1) => (Outcome.noReturn, s1)
  | (Outcome.returned none, s1) =>
    match oplogSync w s1 with
    | (Outcome.returned (some err), s2) => (Outcome.returned (some err), s2)
    | r2 => r2

/-! ## A concrete deployment, for evaluation -/

/-- A source with databases `admin`, `app`, `local`; `app` has collections
`users` (documents 1, 2, 3; indexes `_id_`, `email`), `system.indexes` and `logs`. -/
def demoWorld : World where
  dial := fun _ addr => if addr = "src:27017" then .ok 1 else if addr = "dst:27017" then .ok 2
    else .error "no reachable servers"
  getOptime := fun _ => .ok 6001
  databaseNames := fun _ => .ok ["admin", "app", "local"]
  collectionNames := fun _ db => if db = "app" then .ok ["users", "system.indexes", "logs"]
    else .ok ["system.users"]
  indexes := fun _ _ coll => if coll = "users" then .ok ["_id_", "email"] else .ok ["_id_"]
  ensureIndex := fun _ _ _ _ => none
  find := fun _ _ coll => if coll = "users" then [1, 2, 3] else [7]
  insert := fun _ _ _ _ d => if d = 2 then some "E11000 duplicate key" else none
  numCPU := 2
  numCPU_pos := by decide
  sched := fun _ _ => [0, 1, 0, 2, 1]
  newOplogReplayer := fun _ _ _ => true
  replayerRunReturns := true

/-- The configuration of the demo deployment. -/
def demoConfig : Config := { From := "src:27017", To := "dst:27017", OplogOnly := false }

/-- The synchronizer that `NewSynchronizer` builds in the demo deployment, with no event
recorded yet. -/
def demoState : State :=
  { sync := { config := demoConfig, srcSession := 1, dstSession := 2, optime := 6001 },
    trace := [] }

/-- The demo deployment with two collections `a` and `b` in database `app` and one
collection in database `shop`, where creating index `by_email` on `app.a` fails. -/
def failWorld : World :=
  { demoWorld with
    databaseNames := fun _ => .ok ["app", "shop"]
    collectionNames := fun _ db => if db = "app" then .ok ["a", "b"] else .ok ["items"]
    indexes := fun _ _ _ => .ok ["_id_", "by_email"]
    ensureIndex := fun _ db coll idx =>
      if db = "app" ∧ coll = "a" ∧ idx = "by_email" then some "cannot create index" else none
    find := fun _ _ _ => [1] }

/-- The demo deployment with a source that fails to list its databases. -/
def downWorld : World :=
  { demoWorld with databaseNames := fun _ => .error "EOF" }

/-! ## Vocabulary for statements about traces -/

/-- The namespace (database, collection) an event is about, if it is about one. -/
def Event.ns : Event → Option (String × String)
  | .indexes _ db coll _ => some (db, coll)
  | .ensureIndex _ db coll _ _ => some (db, coll)
  | .spawn _ db coll => some (db, coll)
  | .iter _ db coll => some (db, coll)
  | .count _ db coll => some (db, coll)
  | .next _ db coll _ => some (db, coll)
  | .cursorClose _ db coll => some (db, coll)
  | .send db coll _ => some (db, coll)
  | .insert _ _ db coll _ _ => some (db, coll)
  | _ => none

/-- Events of the document copy: a worker is started, the cursor is opened, counted,
read or closed, a document is handed to the workers, a document is inserted. -/
def Event.isCopy : Event → Bool
  | .spawn .. => true
  | .iter .. => true
  | .count .. => true
  | .next .. => true
  | .cursorClose .. => true
  | .send .. => true
  | .insert .. => true
  | _ => false

/-- Events of index replication: listing the indexes, creating one. -/
def Event.isIndexOp : Event → Bool
  | .indexes .. => true
  | .ensureIndex .. => true
  | _ => false

/-- The destination namespace an event writes to (index creation or insert). -/
def Event.writeNs : Event → Option (String × String)
  | .ensureIndex _ db coll _ _ => some (db, coll)
  | .insert _ _ db coll _ _ => some (db, coll)
  | _ => none

/-- Events of the bulk copy as a whole: listings, index replication, document copy. -/
def Event.isBulk : Event → Bool
  | .databaseNames .. => true
  | .collectionNames .. => true
  | e => e.isIndexOp || e.isCopy

/-- The events of the goroutines once the workers run and the cursor is open: a cursor
read or close, a document handed to the workers, an insert. -/
def StepEv (src dst : Session) (db coll : String) : Event → Prop
  | .next s d c _ => s = src ∧ d = db ∧ c = coll
  | .cursorClose s d c => s = src ∧ d = db ∧ c = coll
  | .send d c _ => d = db ∧ c = coll
  | .insert _ s d c _ _ => s = dst ∧ d = db ∧ c = coll
  | _ => False

/-- The events with which the main goroutine starts a collection copy: the workers are
started, the cursor is opened, the collection is counted (source lines 132-142). -/
def copyInitEvents (src : Session) (db coll : String) (nworkers : Nat) : List Event :=
  (List.range' 0 nworkers).map (fun i => Event.spawn i db coll)
    ++ [Event.iter src db coll, Event.count src db coll]

/-- The documents on which `Insert` was attempted, in trace order. -/
def insertedDocs (tr : List Event) : List Doc :=
  tr.filterMap fun e => match e with
    | .insert _ _ _ _ d _ => some d
    | _ => none

/-- The documents the cursor yielded, in trace order. -/
def yieldedDocs (tr : List Event) : List Doc :=
  tr.filterMap fun e => match e with
    | .next _ _ _ (some d) => some d
    | _ => none

/-- The document a worker has received and not yet inserted. -/
def WState.held : WState → Multiset Doc
  | .holding d => {d}
  | _ => 0

/-- One if the worker has not returned yet. -/
def WState.live : WState → Nat
  | .exited => 0
  | _ => 1

/-- The value of the loop counter of the wait loop (0 before that loop). -/
def MainPc.received : MainPc → Nat
  | .waiting i => i
  | _ => 0

/-- Run the goroutines in the given order; `none` if one of them cannot move at its turn. -/
def execActors (w : World) (db coll : String) (nworkers : Nat) :
    List Actor → CopyState → Option CopyState
  | [], c => some c
  | a :: rest, c =>
    match step w db coll nworkers c a with
    | some c2 => execActors w db coll nworkers rest c2
    | none => none

/-- What holds of every state of a collection copy started from `base` over the
cursor contents `all`, with `seg` the events since. -/
structure CopyInv (nworkers : Nat) (base : State) (db coll : String) (all : List Doc)
    (c : CopyState) (seg : List Event) : Prop where
  sync_eq : c.st.sync = base.sync
  trace_eq : c.st.trace = base.trace ++ seg
  events : ∀ e ∈ seg, StepEv base.sync.srcSession base.sync.dstSession db coll e
  workers_len : c.workers.length = nworkers
  open_done : c.closed = false → c.done = 0
  open_live : c.closed = false → WState.exited ∉ c.workers
  closed_iff : c.closed = true ↔ ∃ i, c.pc = MainPc.waiting i
  tokens : c.pc.received + c.done + (c.workers.map WState.live).sum = nworkers
  drained : c.pc ≠ MainPc.producing → c.cursor = [] ∧ c.sending = none
  exited_empty : WState.exited ∈ c.workers → c.docs = []
  yielded : yieldedDocs seg ++ c.cursor = all
  conserve : (insertedDocs seg : Multiset Doc) + (c.workers.map WState.held).sum
      + (c.docs : Multiset Doc) + (c.sending.toList : Multiset Doc)
      + (c.cursor : Multiset Doc) = (all : Multiset Doc)

/-- The events of a successful index replication of `db.coll` with indexes `idxs`. -/
def indexEvents (src dst : Session) (db coll : String) (idxs : List Index) : List Event :=
  Event.indexes src db coll none :: idxs.map (fun i => Event.ensureIndex dst db coll i none)

/-- The shape of the events `syncDatabase` adds while it goes through the collections
`colls` of `db`, and how it ends. -/
inductive CollsRun (w : World) (p : Synchronizer) (db : String) :
    List String → List Event → Outcome → Prop where
  /-- No collection is left. -/
  | done : CollsRun w p db [] [] (Outcome.returned none)
  /-- A collection whose name starts with `system.` is passed over. -/
  | skip {c : String} {rest : List String} {seg : List Event} {o : Outcome} :
      stringsIndex c "system." = 0 → CollsRun w p db rest seg o →
      CollsRun w p db (c :: rest) seg o
  /-- Listing the indexes fails. -/
  | listFail {c : String} {rest : List String} {err : Error} :
      stringsIndex c "system." ≠ 0 → w.indexes p.srcSession db c = .error err →
      CollsRun w p db (c :: rest) [Event.indexes p.srcSession db c (some err)]
        (Outcome.returned (some err))
  /-- Creating index `i` fails, after those of `pre` were created. -/
  | ensureFail {c : String} {rest : List String} {idxs pre post : List Index} {i : Index}
      {err : Error} :
      stringsIndex c "system." ≠ 0 → w.indexes p.srcSession db c = .ok idxs →
      idxs = pre ++ i :: post → (∀ j ∈ pre, w.ensureIndex p.dstSession db c j = none) →
      w.ensureIndex p.dstSession db c i = some err →
      CollsRun w p db (c :: rest)
        (indexEvents p.srcSession p.dstSession db c pre
          ++ [Event.ensureIndex p.dstSession db c i (some err)])
        (Outcome.returned (some err))
  /-- The document copy blocks for ever; only a copy without workers can. -/
  | stuck {c : String} {rest : List String} {idxs : List Index} {steps : List Event} :
      stringsIndex c "system." ≠ 0 → w.indexes p.srcSession db c = .ok idxs →
      (∀ j ∈ idxs, w.ensureIndex p.dstSession db c j = none) →
      w.numCPU = 0 →
      (∀ e ∈ steps, StepEv p.srcSession p.dstSession db c e) →
      CollsRun w p db (c :: rest)
        (indexEvents p.srcSession p.dstSession db c idxs
          ++ copyInitEvents p.srcSession db c w.numCPU ++ steps)
        Outcome.noReturn
  /-- Indexes and documents of the collection are copied, and the loop goes on. -/
  | copied {c : String} {rest : List String} {idxs : List Index} {steps seg : List Event}
      {o : Outcome} :
      stringsIndex c "system." ≠ 0 → w.indexes p.srcSession db c = .ok idxs →
      (∀ j ∈ idxs, w.ensureIndex p.dstSession db c j = none) →
      (∀ e ∈ steps, StepEv p.srcSession p.dstSession db c e) →
      (0 < w.numCPU → (insertedDocs steps).Perm (w.find p.srcSession db c) ∧
        yieldedDocs steps = w.find p.srcSession db c) →
      CollsRun w p db rest seg o →
      CollsRun w p db (c :: rest)
        (indexEvents p.srcSession p.dstSession db c idxs
          ++ copyInitEvents p.srcSession db c w.numCPU ++ steps ++ seg)
        o

/-- The shape of the events `syncDatabases` adds while it goes through the databases
`dbs`, and how the loop ends. -/
inductive DbsRun (w : World) (p : Synchronizer) : List String → List Event → Outcome → Prop where
  /-- No database is left. -/
  | done : DbsRun w p [] [] (Outcome.returned none)
  /-- The databases `local` and `admin` are passed over. -/
  | skip {db : String} {rest : List String} {seg : List Event} {o : Outcome} :
      (db = "local" ∨ db = "admin") → DbsRun w p rest seg o → DbsRun w p (db :: rest) seg o
  /-- Listing the collections fails; the loop goes on. -/
  | listFail {db : String} {rest : List String} {seg : List Event} {o : Outcome} {err : Error} :
      db ≠ "local" → db ≠ "admin" → w.collectionNames p.srcSession db = .error err →
      DbsRun w p rest seg o →
      DbsRun w p (db :: rest) (Event.collectionNames p.srcSession db (some err) :: seg) o
  /-- The call `syncDatabase` returns, with an error or without; the loop goes on. -/
  | synced {db : String} {rest colls : List String} {cseg seg : List Event} {o : Outcome}
      {r : Option Error} :
      db ≠ "local" → db ≠ "admin" → w.collectionNames p.srcSession db = .ok colls →
      CollsRun w p db colls cseg (Outcome.returned r) → DbsRun w p rest seg o →
      DbsRun w p (db :: rest) (Event.collectionNames p.srcSession db none :: cseg ++ seg) o
  /-- The call `syncDatabase` never returns. -/
  | stuck {db : String} {rest colls : List String} {cseg : List Event} :
      db ≠ "local" → db ≠ "admin" → w.collectionNames p.srcSession db = .ok colls →
      CollsRun w p db colls cseg Outcome.noReturn →
      DbsRun w p (db :: rest) (Event.collectionNames p.srcSession db none :: cseg)
        Outcome.noReturn

/-- The error with which an index listing or an index creation failed. -/
def Event.failure : Event → Option Error
  | .indexes _ _ _ err => err
  | .ensureIndex _ _ _ _ err => err
  | _ => none

/-- Is the event a listing or an index creation that failed? -/
def Event.failed : Event → Bool
  | .databaseNames _ (some _) => true
  | .collectionNames _ _ (some _) => true
  | .indexes _ _ _ (some _) => true
  | .ensureIndex _ _ _ _ (some _) => true
  | _ => false

/-- The collection list of a database: what `CollectionNames` returns, nothing on error. -/
def collectionList (w : World) (src : Session) (db : String) : List String :=
  match w.collectionNames src db with
  | .ok collnames => collnames
  | .error _ => []

/-- The events of `oplogSync`: the replayer is constructed from the two addresses and
the stored optime and, if that gave a replayer, it is run. -/
def oplogEvents (w : World) (p : Synchronizer) : List Event :=
  Event.newOplogReplayer p.config.From p.config.To p.optime
      (w.newOplogReplayer p.config.From p.config.To p.optime)
    :: (if w.newOplogReplayer p.config.From p.config.To p.optime then [Event.replayerRun]
        else [])

/-- The namespaces on which index replication was started (`coll.Indexes()` was called),
in trace order. -/
def indexRuns (tr : List Event) : List (String × String) :=
  tr.filterMap fun e => match e with
    | .indexes _ db coll _ => some (db, coll)
    | _ => none

/-- The namespaces on which the document copy was started (the cursor was opened),
in trace order. -/
def copyRuns (tr : List Event) : List (String × String) :=
  tr.filterMap fun e => match e with
    | .iter _ db coll => some (db, coll)
    | _ => none

/-- The namespaces the specification wants copied: the database list without `admin`
and `local`, each database expanded to its collection list without the names that have
the prefix `system.`, in listing order. -/
def specNamespaces (dbs : List String) (colls : String → List String) :
    List (String × String) :=
  (dbs.filter fun db => decide (db ≠ "admin" ∧ db ≠ "local")).flatMap fun db =>
    ((colls db).filter fun c => decide (¬ "system.".data <+: c.data)).map fun c => (db, c)

/-! ## Lemmas: `strings.Index` -/

theorem indexFrom_ge (sub : List Char) (l : List Char) (i : Nat) :
    indexFrom sub l i = -1 ∨ (i : Int) ≤ indexFrom sub l i := by
  induction l generalizing i with
  | nil => unfold indexFrom; split <;> simp
  | cons c t ih =>
    unfold indexFrom
    split
    · simp
    · rcases ih (i + 1) with h | h
      · exact Or.inl h
      · right; push_cast at h; omega

theorem indexFrom_eq_iff (sub : List Char) (l : List Char) (i : Nat) :
    indexFrom sub l i = (i : Int) ↔ sub <+: l := by
  cases l with
  | nil =>
    unfold indexFrom
    by_cases h : sub.isPrefixOf [] = true
    · simp only [h, if_true, true_iff]; exact List.isPrefixOf_iff_prefix.mp h
    · have h2 : ¬ sub <+: [] := fun hp => h (List.isPrefixOf_iff_prefix.mpr hp)
      simp only [h, h2, iff_false]
      simp only [Bool.false_eq_true, if_false]
      omega
  | cons c t =>
    unfold indexFrom
    by_cases h : sub.isPrefixOf (c :: t) = true
    · simp only [h, if_true, true_iff]; exact List.isPrefixOf_iff_prefix.mp h
    · have h2 : ¬ sub <+: (c :: t) := fun hp => h (List.isPrefixOf_iff_prefix.mpr hp)
      simp only [h, h2, iff_false]
      simp only [Bool.false_eq_true, if_false]
      rcases indexFrom_ge sub t (i + 1) with h3 | h3
      · omega
      · push_cast at h3; omega

theorem stringsIndex_eq_zero_iff (s sub : String) :
    stringsIndex s sub = 0 ↔ sub.data <+: s.data := by
  unfold stringsIndex
  have := indexFrom_eq_iff sub.data s.data 0
  simpa using this

/-! ## Lemmas: one step of a collection copy -/

theorem sum_map_set {α M : Type} [AddCommMonoid M] (f : α → M) (b : α) :
    ∀ (l : List α) (i : Nat) (a : α), l.get? i = some a →
      ((l.set i b).map f).sum + f a = (l.map f).sum + f b
  | [], i, a, h => by simp at h
  | x :: t, 0, a, h => by
    simp at h
    subst h
    simp only [List.set_cons_zero, List.map_cons, List.sum_cons]
    abel
  | x :: t, i + 1, a, h => by
    have ih := sum_map_set f b t i a (by simpa using h)
    simp only [List.set_cons_succ, List.map_cons, List.sum_cons]
    rw [add_assoc, ih, add_assoc]

theorem mem_set_cases {α : Type} (b : α) :
    ∀ (l : List α) (i : Nat) (x : α), x ∈ l.set i b → x = b ∨ x ∈ l
  | [], _, x, h => by simp at h
  | y :: t, 0, x, h => by
    simp only [List.set_cons_zero, List.mem_cons] at h
    rcases h with h | h
    · exact Or.inl h
    · exact Or.inr (List.mem_cons_of_mem _ h)
  | y :: t, i + 1, x, h => by
    simp only [List.set_cons_succ, List.mem_cons] at h
    rcases h with h | h
    · exact Or.inr (by simp [h])
    · rcases mem_set_cases b t i x h with h2 | h2
      · exact Or.inl h2
      · exact Or.inr (List.mem_cons_of_mem _ h2)

theorem insertedDocs_append (a b : List Event) :
    insertedDocs (a ++ b) = insertedDocs a ++ insertedDocs b := by
  simp [insertedDocs, List.filterMap_append]

theorem yieldedDocs_append (a b : List Event) :
    yieldedDocs (a ++ b) = yieldedDocs a ++ yieldedDocs b := by
  simp [yieldedDocs, List.filterMap_append]

theorem mainStep_inv {n : Nat} {base : State} {db coll : String} {all : List Doc}
    {c c2 : CopyState} {seg : List Event} (h : CopyInv n base db coll all c seg)
    (hs : mainStep db coll n c = some c2) :
    ∃ seg2, CopyInv n base db coll all c2 (seg ++ seg2) ∧ c2.measure n + 1 = c.measure n := by
  obtain ⟨st, cursor, sending, docs, closed, done, workers, pc⟩ := c
  obtain ⟨h1, h2, h3, h4, h5, h5b, h6, h7, h8, h9, h10, h11⟩ := h
  simp only at h1 h2 h4 h5 h5b h6 h7 h8 h9 h10 h11
  unfold mainStep at hs
  simp only at hs
  cases pc with
  | producing =>
    have hcl : closed = false := by
      cases closed with
      | false => rfl
      | true => obtain ⟨i, hi⟩ := h6.mp rfl; cases hi
    cases sending with
    | some d =>
      simp only at hs
      split at hs
      · simp only [Option.some.injEq] at hs
        subst hs
        refine ⟨[Event.send db coll d], ⟨h1, ?_, ?_, h4, h5, h5b, h6, h7, ?_, ?_, ?_, ?_⟩, ?_⟩
        · simp [State.emit, h2]
        · intro e he
          rcases List.mem_append.mp he with he | he
          · exact h3 e he
          · simp at he; subst he; simp [StepEv]
        · intro hp; exact absurd rfl hp
        · intro hex; exact absurd hex (h5b hcl)
        · simpa [yieldedDocs_append, yieldedDocs] using h10
        · rw [insertedDocs_append, show insertedDocs [Event.send db coll d] = [] from rfl,
            ← h11]
          simp only [Option.toList, ← Multiset.coe_add, List.append_nil, Multiset.coe_nil]
          abel
        · simp [CopyState.measure, MainPc.cost]; omega
      · simp at hs
    | none =>
      simp only at hs
      cases cursor with
      | cons d rest =>
        simp only [Option.some.injEq] at hs
        subst hs
        refine ⟨[Event.next st.sync.srcSession db coll (some d)],
          ⟨h1, ?_, ?_, h4, h5, h5b, h6, h7, ?_, ?_, ?_, ?_⟩, ?_⟩
        · simp [State.emit, h2]
        · intro e he
          rcases List.mem_append.mp he with he | he
          · exact h3 e he
          · simp at he; subst he; simp [StepEv, h1]
        · intro hp; exact absurd rfl hp
        · intro hex; exact absurd hex (h5b hcl)
        · simpa [yieldedDocs_append, yieldedDocs] using h10
        · rw [insertedDocs_append,
            show insertedDocs [Event.next st.sync.srcSession db coll (some d)] = [] from rfl,
            ← h11]
          simp only [Option.toList, ← Multiset.coe_add, ← Multiset.cons_coe,
            ← Multiset.singleton_add, Multiset.coe_nil, List.append_nil]
          abel
        · simp [CopyState.measure, MainPc.cost]; omega
      | nil =>
        simp only [Option.some.injEq] at hs
        subst hs
        refine ⟨[Event.next st.sync.srcSession db coll none],
          ⟨h1, ?_, ?_, h4, h5, h5b, ?_, h7, ?_, ?_, ?_, ?_⟩, ?_⟩
        · simp [State.emit, h2]
        · intro e he
          rcases List.mem_append.mp he with he | he
          · exact h3 e he
          · simp at he; subst he; simp [StepEv, h1]
        · simp [hcl]
        · intro _; exact ⟨rfl, rfl⟩
        · intro hex; exact absurd hex (h5b hcl)
        · simpa [yieldedDocs_append, yieldedDocs] using h10
        · rw [insertedDocs_append,
            show insertedDocs [Event.next st.sync.srcSession db coll none] = [] from rfl,
            List.append_nil]
          exact h11
        · simp [CopyState.measure, MainPc.cost]; omega
  | closing =>
    have hcl : closed = false := by
      cases closed with
      | false => rfl
      | true => obtain ⟨i, hi⟩ := h6.mp rfl; cases hi
    simp only [Option.some.injEq] at hs
    subst hs
    refine ⟨[Event.cursorClose st.sync.srcSession db coll],
      ⟨h1, ?_, ?_, h4, h5, h5b, ?_, h7, ?_, ?_, ?_, ?_⟩, ?_⟩
    · simp [State.emit, h2]
    · intro e he
      rcases List.mem_append.mp he with he | he
      · exact h3 e he
      · simp at he; subst he; simp [StepEv, h1]
    · simp [hcl]
    · intro _; exact h8 (by simp)
    · intro hex; exact absurd hex (h5b hcl)
    · simpa [yieldedDocs_append, yieldedDocs] using h10
    · rw [insertedDocs_append,
        show insertedDocs [Event.cursorClose st.sync.srcSession db coll] = [] from rfl,
        List.append_nil]
      exact h11
    · simp [CopyState.measure, MainPc.cost]; omega
  | closingDocs =>
    have hcl : closed = false := by
      cases closed with
      | false => rfl
      | true => obtain ⟨i, hi⟩ := h6.mp rfl; cases hi
    simp only [Option.some.injEq] at hs
    subst hs
    refine ⟨[], ⟨h1, ?_, ?_, h4, ?_, ?_, ?_, ?_, ?_, ?_, ?_, ?_⟩, ?_⟩
    · simp [h2]
    · simpa using h3
    · intro hc; cases hc
    · intro hc; cases hc
    · simp
    · simpa [MainPc.received] using h7
    · intro _; exact h8 (by simp)
    · intro hex; exact absurd hex (h5b hcl)
    · simpa using h10
    · simpa using h11
    · simp [CopyState.measure, MainPc.cost]; omega
  | waiting i =>
    simp only at hs
    split at hs
    · split at hs
      · simp only [Option.some.injEq] at hs
        subst hs
        have hcl : closed = true := h6.mpr ⟨i, rfl⟩
        refine ⟨[], ⟨h1, ?_, ?_, h4, ?_, ?_, ?_, ?_, ?_, ?_, ?_, ?_⟩, ?_⟩
        · simp [h2]
        · simpa using h3
        · intro hc; simp [hcl] at hc
        · intro hc; simp [hcl] at hc
        · simp [hcl]
        · simp only [MainPc.received] at h7 ⊢; omega
        · intro _; exact h8 (by simp)
        · exact h9
        · simpa using h10
        · simpa using h11
        · simp [CopyState.measure, MainPc.cost]; omega
      · simp at hs
    · simp at hs

theorem write_document_inv {w : World} {id n : Nat} {base : State} {db coll : String}
    {all : List Doc} {c c2 : CopyState} {seg : List Event}
    (h : CopyInv n base db coll all c seg)
    (hs : write_document w id db coll n c = some c2) :
    ∃ seg2, CopyInv n base db coll all c2 (seg ++ seg2) ∧ c2.measure n + 1 = c.measure n := by
  obtain ⟨st, cursor, sending, docs, closed, done, workers, pc⟩ := c
  obtain ⟨h1, h2, h3, h4, h5, h5b, h6, h7, h8, h9, h10, h11⟩ := h
  simp only at h1 h2 h4 h5 h5b h6 h7 h8 h9 h10 h11
  unfold write_document at hs
  simp only at hs
  cases hget : workers.get? id with
  | none => rw [hget] at hs; simp at hs
  | some ws =>
    rw [hget] at hs
    have hlive := fun b => sum_map_set WState.live b workers id ws hget
    have hheld := fun b => sum_map_set WState.held b workers id ws hget
    have hcost := fun b => sum_map_set WState.cost b workers id ws hget
    cases ws with
    | exited => simp at hs
    | idle =>
      simp only at hs
      cases docs with
      | cons d rest =>
        simp only [Option.some.injEq] at hs
        subst hs
        have hl := hlive (WState.holding d)
        have hh := hheld (WState.holding d)
        have hc := hcost (WState.holding d)
        simp only [WState.live, WState.held, WState.cost, add_zero] at hl hh hc
        refine ⟨[], ⟨h1, ?_, ?_, ?_, h5, ?_, h6, ?_, h8, ?_, ?_, ?_⟩, ?_⟩
        · simp [h2]
        · simpa using h3
        · simp [h4]
        · intro hcl hex
          rcases mem_set_cases _ _ _ _ hex with hx | hx
          · cases hx
          · exact h5b hcl hx
        · simp only at hl ⊢; omega
        · intro hex
          rcases mem_set_cases _ _ _ _ hex with hx | hx
          · cases hx
          · have := h9 hx; simp at this
        · simpa using h10
        · simp only [List.append_nil]
          rw [← h11, hh]
          simp only [← Multiset.cons_coe, ← Multiset.singleton_add]
          abel
        · simp only [CopyState.measure, List.length_cons] at hc ⊢; omega
      | nil =>
        simp only at hs
        split at hs
        · split at hs
          · simp only [Option.some.injEq] at hs
            subst hs
            rename_i hcl hdn
            have hl := hlive WState.exited
            have hh := hheld WState.exited
            have hc := hcost WState.exited
            simp only [WState.live, WState.held, WState.cost, add_zero] at hl hh hc
            refine ⟨[], ⟨h1, ?_, ?_, ?_, ?_, ?_, h6, ?_, h8, ?_, ?_, ?_⟩, ?_⟩
            · simp [h2]
            · simpa using h3
            · simp [h4]
            · intro hc2; simp [hcl] at hc2
            · intro hc2; simp [hcl] at hc2
            · simp only at hl ⊢; omega
            · intro _; rfl
            · simpa using h10
            · simp only [List.append_nil]
              rw [← h11, hh]
            · simp only [CopyState.measure] at hc ⊢; omega
          · simp at hs
        · simp at hs
    | holding d =>
      simp only [Option.some.injEq] at hs
      subst hs
      have hl := hlive WState.idle
      have hh := hheld WState.idle
      have hc := hcost WState.idle
      simp only [WState.live, WState.held, WState.cost, add_zero] at hl hh hc
      refine ⟨[Event.insert id st.sync.dstSession db coll d
          (w.insert st.trace.length st.sync.dstSession db coll d)],
        ⟨h1, ?_, ?_, ?_, h5, ?_, h6, ?_, h8, ?_, ?_, ?_⟩, ?_⟩
      · simp [State.emit, h2]
      · intro e he
        rcases List.mem_append.mp he with he | he
        · exact h3 e he
        · simp at he; subst he; simp [StepEv, h1]
      · simp [h4]
      · intro hcl hex
        rcases mem_set_cases _ _ _ _ hex with hx | hx
        · cases hx
        · exact h5b hcl hx
      · simp only at hl ⊢; omega
      · intro hex
        rcases mem_set_cases _ _ _ _ hex with hx | hx
        · cases hx
        · exact h9 hx
      · simpa [yieldedDocs_append, yieldedDocs] using h10
      · rw [insertedDocs_append, show insertedDocs [Event.insert id st.sync.dstSession db coll d
          (w.insert st.trace.length st.sync.dstSession db coll d)] = [d] from rfl, ← h11, ← hh]
        simp only [← Multiset.coe_add, Multiset.coe_singleton]
        abel
      · simp only [CopyState.measure] at hc ⊢; omega

theorem step_inv {w : World} {n : Nat} {base : State} {db coll : String}
    {all : List Doc} {c c2 : CopyState} {seg : List Event} {a : Actor}
    (h : CopyInv n base db coll all c seg)
    (hs : step w db coll n c a = some c2) :
    ∃ seg2, CopyInv n base db coll all c2 (seg ++ seg2) ∧ c2.measure n + 1 = c.measure n := by
  cases a with
  | main => exact mainStep_inv h hs
  | worker id => exact write_document_inv h hs

/-! ## Lemmas: a collection copy cannot get stuck, and ends with every document tried -/

theorem exists_live : ∀ (l : List WState), 0 < (l.map WState.live).sum →
    ∃ id ws, l.get? id = some ws ∧ ws ≠ WState.exited
  | [], h => by simp at h
  | x :: t, h => by
    by_cases hx : x = WState.exited
    · subst hx
      simp only [List.map_cons, List.sum_cons, WState.live, zero_add] at h
      obtain ⟨id, ws, h1, h2⟩ := exists_live t h
      exact ⟨id + 1, ws, by simpa using h1, h2⟩
    · exact ⟨0, x, by simp, hx⟩

theorem all_exited_of_live_zero : ∀ (l : List WState), (l.map WState.live).sum = 0 →
    ∀ ws ∈ l, ws = WState.exited
  | [], _, ws, hws => by simp at hws
  | x :: t, h, ws, hws => by
    simp only [List.map_cons, List.sum_cons] at h
    have hx : x.live = 0 := by omega
    have ht : (t.map WState.live).sum = 0 := by omega
    rcases List.mem_cons.mp hws with h1 | h1
    · subst h1
      cases ws <;> simp [WState.live] at hx ⊢
    · exact all_exited_of_live_zero t ht ws h1

theorem held_sum_of_all_exited : ∀ (l : List WState), (∀ ws ∈ l, ws = WState.exited) →
    (l.map WState.held).sum = 0
  | [], _ => by simp
  | x :: t, h => by
    have hx : x = WState.exited := h x (by simp)
    have ht := held_sum_of_all_exited t (fun ws hws => h ws (List.mem_cons_of_mem _ hws))
    subst hx
    simp [WState.held, ht]

theorem worker_enabled (w : World) (db coll : String) (n id : Nat) (c : CopyState)
    (ws : WState) (hget : c.workers.get? id = some ws) (hws : ws ≠ WState.exited)
    (hd : c.docs ≠ [] ∨ (c.closed = true ∧ c.done < n)) :
    (write_document w id db coll n c).isSome = true := by
  unfold write_document
  rw [hget]
  cases ws with
  | exited => exact absurd rfl hws
  | holding d => simp
  | idle =>
    simp only
    cases hdocs : c.docs with
    | cons d rest => simp
    | nil =>
      rcases hd with hd | ⟨hc, hdn⟩
      · exact absurd hdocs hd
      · simp [hc, hdn]

theorem worker_mem_actors {n id : Nat} (h : id < n) : Actor.worker id ∈ actors n := by
  unfold actors
  exact List.mem_cons_of_mem _ (List.mem_map.mpr ⟨id, List.mem_range.mpr h, rfl⟩)

theorem enabled_ne_nil_of {w : World} {db coll : String} {n : Nat} {c : CopyState} {a : Actor}
    (ha : a ∈ actors n) (hs : (step w db coll n c a).isSome = true) :
    enabled w db coll n c ≠ [] := by
  intro hnil
  have : a ∈ enabled w db coll n c := by
    unfold enabled
    exact List.mem_filter.mpr ⟨ha, hs⟩
  rw [hnil] at this
  simp at this

theorem deadlock_free {w : World} {n : Nat} {base : State} {db coll : String}
    {all : List Doc} {c : CopyState} {seg : List Event}
    (h : CopyInv n base db coll all c seg) (hn : 0 < n) (hf : c.finished n = false) :
    enabled w db coll n c ≠ [] := by
  have hmain : Actor.main ∈ actors n := by simp [actors]
  -- a worker that has not returned can move whenever `docs` holds a document,
  -- or is closed while `done` has room
  have hworker : 0 < (c.workers.map WState.live).sum →
      (c.docs ≠ [] ∨ (c.closed = true ∧ c.done < n)) → enabled w db coll n c ≠ [] := by
    intro hl hd
    obtain ⟨id, ws, hget, hws⟩ := exists_live c.workers hl
    have hid : id < n := by
      have := (List.get?_eq_some.mp hget).1
      rw [h.workers_len] at this
      exact this
    exact enabled_ne_nil_of (worker_mem_actors hid)
      (by simpa [step] using worker_enabled w db coll n id c ws hget hws hd)
  have htok := h.tokens
  cases hpc : c.pc with
  | producing =>
    have hcl : c.closed = false := by
      cases hc : c.closed with
      | false => rfl
      | true => obtain ⟨i, hi⟩ := h.closed_iff.mp hc; rw [hpc] at hi; cases hi
    cases hsend : c.sending with
    | none =>
      apply enabled_ne_nil_of hmain
      simp only [step, mainStep, hpc, hsend]
      cases c.cursor <;> simp
    | some d =>
      by_cases hlen : c.docs.length < 10000
      · apply enabled_ne_nil_of hmain
        simp [step, mainStep, hpc, hsend, hlen]
      · apply hworker
        · have := h.open_done hcl
          rw [hpc] at htok
          simp only [MainPc.received] at htok
          omega
        · left
          intro hnil
          rw [hnil] at hlen
          simp at hlen
  | closing =>
    apply enabled_ne_nil_of hmain
    simp [step, mainStep, hpc]
  | closingDocs =>
    apply enabled_ne_nil_of hmain
    simp [step, mainStep, hpc]
  | waiting i =>
    have hi : i < n := by
      simp only [CopyState.finished, hpc, decide_eq_false_iff_not, not_le] at hf
      exact hf
    have hcl : c.closed = true := h.closed_iff.mpr ⟨i, hpc⟩
    by_cases hd : 0 < c.done
    · apply enabled_ne_nil_of hmain
      simp [step, mainStep, hpc, hi, hd]
    · apply hworker
      · rw [hpc] at htok
        simp only [MainPc.received] at htok
        omega
      · right
        exact ⟨hcl, by omega⟩

theorem getD_mem_or {α : Type} (d : α) : ∀ (l : List α) (k : Nat),
    l.getD k d = d ∨ l.getD k d ∈ l
  | [], k => by simp
  | x :: t, 0 => by simp
  | x :: t, k + 1 => by
    rcases getD_mem_or d t k with h | h
    · left; simpa using h
    · right; simp only [List.getD_cons_succ]; exact List.mem_cons_of_mem _ h

theorem finished_of_measure_zero {n : Nat} {c : CopyState} (h : c.measure n = 0) :
    c.finished n = true := by
  unfold CopyState.measure at h
  have hpc : c.pc.cost n = 0 := by omega
  unfold CopyState.finished
  cases hp : c.pc with
  | producing => rw [hp] at hpc; simp [MainPc.cost] at hpc
  | closing => rw [hp] at hpc; simp [MainPc.cost] at hpc
  | closingDocs => rw [hp] at hpc; simp [MainPc.cost] at hpc
  | waiting i =>
    rw [hp] at hpc
    simp only [MainPc.cost] at hpc
    simp only [decide_eq_true_eq]
    omega

theorem runCopy_inv (w : World) (n : Nat) (base : State) (db coll : String) (all : List Doc) :
    ∀ (fuel : Nat) (sched : List Nat) (c : CopyState) (seg : List Event),
      CopyInv n base db coll all c seg →
      ∃ seg2, CopyInv n base db coll all (runCopy w db coll n fuel sched c) (seg ++ seg2) ∧
        (0 < n → c.measure n ≤ fuel → (runCopy w db coll n fuel sched c).finished n = true)
  | 0, sched, c, seg, h => by
    refine ⟨[], by simpa [runCopy] using h, ?_⟩
    intro _ hm
    simp only [runCopy]
    exact finished_of_measure_zero (by omega)
  | fuel + 1, sched, c, seg, h => by
    unfold runCopy
    cases hen : enabled w db coll n c with
    | nil =>
      refine ⟨[], by simpa using h, ?_⟩
      intro hn _
      simp only
      by_contra hf
      exact deadlock_free h hn (by simpa using hf) hen
    | cons a as =>
      simp only
      have hmem : (a :: as).getD (sched.headD 0 % (as.length + 1)) a ∈ enabled w db coll n c := by
        rw [hen]
        rcases getD_mem_or a (a :: as) (sched.headD 0 % (as.length + 1)) with h1 | h1
        · rw [h1]; simp
        · exact h1
      have hsome := (List.mem_filter.mp hmem).2
      cases hst : step w db coll n c ((a :: as).getD (sched.headD 0 % (as.length + 1)) a) with
      | none => rw [hst] at hsome; simp at hsome
      | some c2 =>
        simp only
        obtain ⟨seg2, hinv2, hmeas⟩ := step_inv h hst
        obtain ⟨seg3, hinv3, hfin⟩ := runCopy_inv w n base db coll all fuel sched.tail c2 _ hinv2
        refine ⟨seg2 ++ seg3, by simpa [List.append_assoc] using hinv3, ?_⟩
        intro hn hm
        exact hfin hn (by omega)

theorem copy_final {n : Nat} {base : State} {db coll : String}
    {all : List Doc} {c : CopyState} {seg : List Event}
    (h : CopyInv n base db coll all c seg) (hn : 0 < n) (hf : c.finished n = true) :
    (insertedDocs seg).Perm all ∧ yieldedDocs seg = all ∧
      (∀ ws ∈ c.workers, ws = WState.exited) ∧ c.docs = [] ∧ c.cursor = [] ∧
      c.sending = none := by
  have htok := h.tokens
  cases hpc : c.pc with
  | producing => simp [CopyState.finished, hpc] at hf
  | closing => simp [CopyState.finished, hpc] at hf
  | closingDocs => simp [CopyState.finished, hpc] at hf
  | waiting i =>
    simp only [CopyState.finished, hpc, decide_eq_true_eq] at hf
    rw [hpc] at htok
    simp only [MainPc.received] at htok
    have hall := all_exited_of_live_zero c.workers (by omega)
    have hdr := h.drained (by rw [hpc]; simp)
    have hne : c.workers ≠ [] := by
      intro hnil
      have := h.workers_len
      rw [hnil] at this
      simp at this
      omega
    obtain ⟨ws, hws⟩ := List.exists_mem_of_ne_nil _ hne
    have hdocs : c.docs = [] := h.exited_empty (by rw [← hall ws hws]; exact hws)
    have hy := h.yielded
    have hc := h.conserve
    rw [held_sum_of_all_exited _ hall, hdocs, hdr.1, hdr.2] at hc
    rw [hdr.1] at hy
    simp only [Option.toList, Multiset.coe_nil, add_zero, Multiset.coe_eq_coe] at hc
    exact ⟨hc, by simpa using hy, hall, hdocs, hdr.1, hdr.2⟩

/-! ## Lemmas: the document copy of one collection -/

theorem spawnWorkers_spec (db coll : String) : ∀ (k i : Nat) (s : State),
    (spawnWorkers db coll k i s).sync = s.sync ∧
    (spawnWorkers db coll k i s).trace
      = s.trace ++ (List.range' i k).map (fun j => Event.spawn j db coll)
  | 0, i, s => by simp [spawnWorkers]
  | k + 1, i, s => by
    obtain ⟨h1, h2⟩ := spawnWorkers_spec db coll k (i + 1) (s.emit (Event.spawn i db coll))
    simp only [spawnWorkers]
    refine ⟨by rw [h1]; rfl, ?_⟩
    rw [h2]
    simp [State.emit, List.range'_succ]

theorem copyInit_trace (w : World) (db coll : String) (s : State) :
    (copyInit w db coll s).st.sync = s.sync ∧
    (copyInit w db coll s).st.trace
      = s.trace ++ copyInitEvents s.sync.srcSession db coll w.numCPU := by
  obtain ⟨h1, h2⟩ := spawnWorkers_spec db coll w.numCPU 0 s
  simp only [copyInit, State.emit, copyInitEvents]
  refine ⟨h1, ?_⟩
  rw [h2]
  simp

theorem copyInit_inv (w : World) (db coll : String) (s : State) :
    CopyInv w.numCPU (copyInit w db coll s).st db coll (w.find s.sync.srcSession db coll)
      (copyInit w db coll s) [] := by
  refine ⟨rfl, by simp, by simp, ?_, ?_, ?_, ?_, ?_, ?_, ?_, ?_, ?_⟩
  · simp [copyInit]
  · intro _; rfl
  · intro _ hex
    simp only [copyInit] at hex
    have := (List.mem_replicate.mp hex).2
    cases this
  · simp [copyInit]
  · simp [copyInit, MainPc.received, WState.live]
  · intro hp; exact absurd rfl hp
  · intro _; rfl
  · simp [copyInit, yieldedDocs]
  · simp [copyInit, insertedDocs, WState.held]

theorem copyCollection_spec (w : World) (db coll : String) (s : State) :
    ∃ seg, CopyInv w.numCPU (copyInit w db coll s).st db coll
        (w.find s.sync.srcSession db coll) (copyCollection w db coll s) seg ∧
      (0 < w.numCPU → (copyCollection w db coll s).finished w.numCPU = true) := by
  obtain ⟨seg, h1, h2⟩ := runCopy_inv w w.numCPU (copyInit w db coll s).st db coll
    (w.find s.sync.srcSession db coll) ((copyInit w db coll s).measure w.numCPU)
    (w.sched db coll) (copyInit w db coll s) [] (copyInit_inv w db coll s)
  refine ⟨seg, by simpa [copyCollection] using h1, ?_⟩
  intro hn
  exact h2 hn (le_refl _)

theorem copyCollection_trace (w : World) (db coll : String) (s : State) :
    (copyCollection w db coll s).st.sync = s.sync ∧
    ∃ steps, (copyCollection w db coll s).st.trace
        = s.trace ++ copyInitEvents s.sync.srcSession db coll w.numCPU ++ steps ∧
      (∀ e ∈ steps, StepEv s.sync.srcSession s.sync.dstSession db coll e) ∧
      (0 < w.numCPU → (copyCollection w db coll s).finished w.numCPU = true ∧
        (insertedDocs steps).Perm (w.find s.sync.srcSession db coll) ∧
        yieldedDocs steps = w.find s.sync.srcSession db coll) := by
  obtain ⟨steps, hinv, hfin⟩ := copyCollection_spec w db coll s
  obtain ⟨hi1, hi2⟩ := copyInit_trace w db coll s
  refine ⟨by rw [hinv.sync_eq, hi1], steps, ?_, ?_, ?_⟩
  · rw [hinv.trace_eq, hi2]
  · intro e he
    have := hinv.events e he
    rwa [hi1] at this
  · intro hn
    have hf := hfin hn
    have := copy_final hinv hn hf
    exact ⟨hf, this.1, this.2.1⟩

/-! ## Lemmas: the shape of the trace of `syncDatabase` -/

theorem ensureIndexes_spec (w : World) (db coll : String) : ∀ (idxs : List Index) (s : State),
    (ensureIndexes w db coll idxs s).2.sync = s.sync ∧
    ((ensureIndexes w db coll idxs s).1 = none ∧
      (∀ j ∈ idxs, w.ensureIndex s.sync.dstSession db coll j = none) ∧
      (ensureIndexes w db coll idxs s).2.trace = s.trace
        ++ idxs.map (fun i => Event.ensureIndex s.sync.dstSession db coll i none)
    ∨ ∃ pre i post err, idxs = pre ++ i :: post ∧
      (∀ j ∈ pre, w.ensureIndex s.sync.dstSession db coll j = none) ∧
      w.ensureIndex s.sync.dstSession db coll i = some err ∧
      (ensureIndexes w db coll idxs s).1 = some err ∧
      (ensureIndexes w db coll idxs s).2.trace = s.trace
        ++ pre.map (fun i => Event.ensureIndex s.sync.dstSession db coll i none)
        ++ [Event.ensureIndex s.sync.dstSession db coll i (some err)])
  | [], s => by simp [ensureIndexes]
  | index :: rest, s => by
    unfold ensureIndexes
    cases hres : w.ensureIndex s.sync.dstSession db coll index with
    | some err =>
      refine ⟨rfl, Or.inr ⟨[], index, rest, err, rfl, by simp, hres, rfl, by simp [State.emit]⟩⟩
    | none =>
      simp only
      obtain ⟨h1, h2⟩ := ensureIndexes_spec w db coll rest
        (s.emit (Event.ensureIndex s.sync.dstSession db coll index none))
      refine ⟨by rw [h1]; rfl, ?_⟩
      rcases h2 with ⟨h3, h4, h5⟩ | ⟨pre, i, post, err, h3, h4, h5, h6, h7⟩
      · left
        refine ⟨h3, ?_, ?_⟩
        · intro j hj
          rcases List.mem_cons.mp hj with hj | hj
          · rw [hj]; exact hres
          · exact h4 j hj
        · rw [h5]; simp [State.emit]
      · right
        refine ⟨index :: pre, i, post, err, by simp [h3], ?_, h5, h6, ?_⟩
        · intro j hj
          rcases List.mem_cons.mp hj with hj | hj
          · rw [hj]; exact hres
          · exact h4 j hj
        · rw [h7]; simp [State.emit]

theorem syncCollections_run (w : World) (db : String) : ∀ (colls : List String) (s : State),
    (syncCollections w db colls s).2.sync = s.sync ∧
    ∃ seg, (syncCollections w db colls s).2.trace = s.trace ++ seg ∧
      CollsRun w s.sync db colls seg (syncCollections w db colls s).1
  | [], s => ⟨rfl, [], by simp [syncCollections], CollsRun.done⟩
  | c :: rest, s => by
    unfold syncCollections
    by_cases hsys : stringsIndex c "system." = 0
    · obtain ⟨h1, seg, h2, h3⟩ := syncCollections_run w db rest s
      simp only [hsys, beq_self_eq_true, if_true]
      exact ⟨h1, seg, h2, CollsRun.skip hsys h3⟩
    · have hb : (stringsIndex c "system." == 0) = false := by simpa using hsys
      simp only [hb, Bool.false_eq_true, if_false]
      cases hidx : w.indexes s.sync.srcSession db c with
      | error err =>
        exact ⟨rfl, _, by simp [State.emit], CollsRun.listFail hsys hidx⟩
      | ok idxs =>
        simp only
        obtain ⟨e1, e2⟩ := ensureIndexes_spec w db c idxs
          (s.emit (Event.indexes s.sync.srcSession db c none))
        have e1b : (ensureIndexes w db c idxs
            (s.emit (Event.indexes s.sync.srcSession db c none))).2.sync = s.sync := e1
        cases hres : ensureIndexes w db c idxs
            (s.emit (Event.indexes s.sync.srcSession db c none)) with
        | mk r s1 =>
          rw [hres] at e2 e1b
          simp only at e2 e1b
          rcases e2 with ⟨h3, h4, h5⟩ | ⟨pre, i, post, err, h3, h4, h5, h6, h7⟩
          · subst h3
            simp only
            obtain ⟨c1, steps, c2, c3, c4⟩ := copyCollection_trace w db c s1
            rw [e1b] at c1 c2 c3 c4
            have h4b : ∀ j ∈ idxs, w.ensureIndex s.sync.dstSession db c j = none := h4
            by_cases hfin : (copyCollection w db c s1).finished w.numCPU = true
            · simp only [hfin, if_true]
              obtain ⟨r1, seg, r2, r3⟩ := syncCollections_run w db rest (copyCollection w db c s1).st
              rw [c1] at r1 r3
              refine ⟨r1, _, ?_, CollsRun.copied hsys hidx h4b c3 (fun hn => (c4 hn).2) r3⟩
              rw [r2, c2, h5]
              simp [State.emit, indexEvents]
            · simp only [hfin, Bool.false_eq_true, if_false]
              have hn : w.numCPU = 0 := by
                by_contra hne
                exact hfin (c4 (Nat.pos_of_ne_zero hne)).1
              refine ⟨c1, _, ?_, CollsRun.stuck hsys hidx h4b hn c3⟩
              rw [c2, h5]
              simp [State.emit, indexEvents]
          · subst h6
            simp only
            refine ⟨e1b, _, ?_, CollsRun.ensureFail hsys hidx h3 h4 h5⟩
            rw [h7]
            simp [State.emit, indexEvents]

/-! ## Lemmas: what the events of one collection look like -/

theorem split_append {α : Type} {A B pre post : List α} {e : α}
    (h : A ++ B = pre ++ e :: post) :
    (∃ post1, A = pre ++ e :: post1 ∧ post = post1 ++ B) ∨
      (∃ pre1, pre = A ++ pre1 ∧ B = pre1 ++ e :: post) := by
  rcases List.append_eq_append_iff.mp h with ⟨a, h1, h2⟩ | ⟨c, h1, h2⟩
  · exact Or.inr ⟨a, h1, h2⟩
  · cases c with
    | nil => exact Or.inr ⟨[], by simpa using h1.symm, by simpa using h2.symm⟩
    | cons x c2 =>
      simp only [List.cons_append, List.cons.injEq] at h2
      obtain ⟨hx, h3⟩ := h2
      subst hx
      exact Or.inl ⟨c2, h1, h3⟩

theorem stepEv_copy {src dst : Session} {db c : String} {e : Event}
    (h : StepEv src dst db c e) :
    e.isCopy = true ∧ e.ns = some (db, c) ∧ e.isIndexOp = false := by
  cases e <;> simp_all [StepEv, Event.isCopy, Event.ns, Event.isIndexOp]

theorem initEv_copy {src : Session} {db c : String} {n : Nat} {e : Event}
    (h : e ∈ copyInitEvents src db c n) :
    e.isCopy = true ∧ e.ns = some (db, c) ∧ e.isIndexOp = false := by
  simp only [copyInitEvents, List.mem_append, List.mem_map, List.mem_cons,
    List.mem_singleton, List.not_mem_nil, or_false] at h
  rcases h with ⟨i, _, rfl⟩ | rfl | rfl <;> simp [Event.isCopy, Event.ns, Event.isIndexOp]

theorem indexEv_index {src dst : Session} {db c : String} {idxs : List Index} {e : Event}
    (h : e ∈ indexEvents src dst db c idxs) :
    e.isIndexOp = true ∧ e.ns = some (db, c) ∧ e.isCopy = false ∧
      (e = Event.indexes src db c none ∨ ∃ i ∈ idxs, e = Event.ensureIndex dst db c i none) := by
  simp only [indexEvents, List.mem_cons, List.mem_map] at h
  rcases h with rfl | ⟨i, hi, rfl⟩
  · simp [Event.isCopy, Event.ns, Event.isIndexOp]
  · simp only [Event.isCopy, Event.ns, Event.isIndexOp, true_and]
    exact Or.inr ⟨i, hi, rfl⟩

theorem mem_copy_part {src dst : Session} {db c : String} {n : Nat} {steps : List Event}
    {e : Event} (hsteps : ∀ e ∈ steps, StepEv src dst db c e)
    (h : e ∈ copyInitEvents src db c n ++ steps) :
    e.isCopy = true ∧ e.ns = some (db, c) ∧ e.isIndexOp = false := by
  rcases List.mem_append.mp h with h | h
  · exact initEv_copy h
  · exact stepEv_copy (hsteps e h)

/-- Every event of the collection loop is an index or copy event of a collection of the
listing whose name does not start with `system.`. -/
theorem collsRun_events {w : World} {p : Synchronizer} {db : String} {colls : List String}
    {seg : List Event} {o : Outcome} (h : CollsRun w p db colls seg o) :
    ∀ e ∈ seg, ∃ c ∈ colls, stringsIndex c "system." ≠ 0 ∧ e.ns = some (db, c) ∧
      (e.isIndexOp = true ∨ e.isCopy = true) := by
  induction h with
  | done => intro e he; simp at he
  | skip _ _ ih =>
    intro e he
    obtain ⟨c, hc, h1⟩ := ih e he
    exact ⟨c, List.mem_cons_of_mem _ hc, h1⟩
  | @listFail c rest err hs _ =>
    intro e he
    simp only [List.mem_singleton] at he
    subst he
    exact ⟨c, by simp, hs, rfl, Or.inl rfl⟩
  | @ensureFail c rest idxs pre post i err hs _ _ _ _ =>
    intro e he
    rcases List.mem_append.mp he with he | he
    · have := indexEv_index he
      exact ⟨c, by simp, hs, this.2.1, Or.inl this.1⟩
    · simp only [List.mem_singleton] at he
      subst he
      exact ⟨c, by simp, hs, rfl, Or.inl rfl⟩
  | @stuck c rest idxs steps hs _ _ _ hsteps =>
    intro e he
    rw [List.append_assoc] at he
    rcases List.mem_append.mp he with he | he
    · have := indexEv_index he
      exact ⟨c, by simp, hs, this.2.1, Or.inl this.1⟩
    · have := mem_copy_part hsteps he
      exact ⟨c, by simp, hs, this.2.1, Or.inr this.1⟩
  | @copied c rest idxs steps seg o hs _ _ hsteps _ _ ih =>
    intro e he
    rcases List.mem_append.mp he with he | he
    · rw [List.append_assoc] at he
      rcases List.mem_append.mp he with he | he
      · have := indexEv_index he
        exact ⟨c, by simp, hs, this.2.1, Or.inl this.1⟩
      · have := mem_copy_part hsteps he
        exact ⟨c, by simp, hs, this.2.1, Or.inr this.1⟩
    · obtain ⟨c2, hc2, h1⟩ := ih e he
      exact ⟨c2, List.mem_cons_of_mem _ hc2, h1⟩

/-- Inside the events of one collection (index replication, then document copy), a copy
event comes after the whole index replication and before no index event. -/
theorem coll_part_split {src dst : Session} {db c : String} {n : Nat}
    {idxs : List Index} {steps pre post : List Event} {e : Event}
    (hsteps : ∀ e ∈ steps, StepEv src dst db c e)
    (h : indexEvents src dst db c idxs ++ (copyInitEvents src db c n ++ steps)
      = pre ++ e :: post)
    (he : e.isCopy = true) :
    (∀ x ∈ indexEvents src dst db c idxs, x ∈ pre) ∧ (∀ x ∈ post, x.isIndexOp = false) := by
  rcases split_append h with ⟨post1, h1, _⟩ | ⟨pre1, h1, h2⟩
  · have hmem : e ∈ indexEvents src dst db c idxs := by rw [h1]; simp
    have := (indexEv_index hmem).2.2.1
    rw [he] at this
    cases this
  · refine ⟨fun x hx => by rw [h1]; exact List.mem_append_left _ hx, fun x hx => ?_⟩
    have hmem : x ∈ copyInitEvents src db c n ++ steps := by rw [h2]; simp [hx]
    exact (mem_copy_part hsteps hmem).2.2

theorem collsRun_indexed_before {w : World} {p : Synchronizer} {db : String}
    {colls : List String} {seg : List Event} {o : Outcome} (h : CollsRun w p db colls seg o) :
    ∀ pre e post c, seg = pre ++ e :: post → e.isCopy = true → e.ns = some (db, c) →
      ∃ idxs, w.indexes p.srcSession db c = .ok idxs ∧
        ∀ i ∈ idxs, w.ensureIndex p.dstSession db c i = none ∧
          Event.ensureIndex p.dstSession db c i none ∈ pre := by
  induction h with
  | done => intro pre e post c hseg; simp at hseg
  | skip _ _ ih => exact ih
  | @listFail c0 rest err hs _ =>
    intro pre e post c hseg he _
    have hmem : e ∈ [Event.indexes p.srcSession db c0 (some err)] := by rw [hseg]; simp
    simp only [List.mem_singleton] at hmem
    subst hmem
    cases he
  | @ensureFail c0 rest idxs pre0 post0 i err hs _ _ _ _ =>
    intro pre e post c hseg he _
    have hmem : e ∈ indexEvents p.srcSession p.dstSession db c0 pre0
        ++ [Event.ensureIndex p.dstSession db c0 i (some err)] := by rw [hseg]; simp
    rcases List.mem_append.mp hmem with hm | hm
    · have := (indexEv_index hm).2.2.1
      rw [he] at this; cases this
    · simp only [List.mem_singleton] at hm
      subst hm
      cases he
  | @stuck c0 rest idxs steps hs hidx hens _ hsteps =>
    intro pre e post c hseg he hns
    rw [List.append_assoc] at hseg
    have hsp := coll_part_split hsteps hseg he
    have hmem : e ∈ copyInitEvents p.srcSession db c0 w.numCPU ++ steps := by
      have h0 : e ∈ indexEvents p.srcSession p.dstSession db c0 idxs
          ++ (copyInitEvents p.srcSession db c0 w.numCPU ++ steps) := by rw [hseg]; simp
      rcases List.mem_append.mp h0 with hm | hm
      · have := (indexEv_index hm).2.2.1
        rw [he] at this; cases this
      · exact hm
    have hc : c = c0 := by
      have := (mem_copy_part hsteps hmem).2.1
      rw [hns] at this
      simp only [Option.some.injEq, Prod.mk.injEq] at this
      exact this.2
    subst hc
    refine ⟨idxs, hidx, fun i hi => ⟨hens i hi, hsp.1 _ ?_⟩⟩
    simp only [indexEvents, List.mem_cons, List.mem_map]
    exact Or.inr ⟨i, hi, rfl⟩
  | @copied c0 rest idxs steps seg o hs hidx hens hsteps _ _ ih =>
    intro pre e post c hseg he hns
    rcases split_append hseg with ⟨post1, h1, _⟩ | ⟨pre1, h1, h2⟩
    · rw [List.append_assoc] at h1
      have hsp := coll_part_split hsteps h1 he
      have hmem : e ∈ copyInitEvents p.srcSession db c0 w.numCPU ++ steps := by
        have h0 : e ∈ indexEvents p.srcSession p.dstSession db c0 idxs
            ++ (copyInitEvents p.srcSession db c0 w.numCPU ++ steps) := by rw [h1]; simp
        rcases List.mem_append.mp h0 with hm | hm
        · have := (indexEv_index hm).2.2.1
          rw [he] at this; cases this
        · exact hm
      have hc : c = c0 := by
        have := (mem_copy_part hsteps hmem).2.1
        rw [hns] at this
        simp only [Option.some.injEq, Prod.mk.injEq] at this
        exact this.2
      subst hc
      refine ⟨idxs, hidx, fun i hi => ⟨hens i hi, hsp.1 _ ?_⟩⟩
      simp only [indexEvents, List.mem_cons, List.mem_map]
      exact Or.inr ⟨i, hi, rfl⟩
    · obtain ⟨idxs2, k1, k2⟩ := ih pre1 e post c h2 he hns
      refine ⟨idxs2, k1, fun i hi => ⟨(k2 i hi).1, ?_⟩⟩
      rw [h1]
      exact List.mem_append_right _ (k2 i hi).2

theorem collsRun_no_index_after {w : World} {p : Synchronizer} {db : String}
    {colls : List String} {seg : List Event} {o : Outcome} (h : CollsRun w p db colls seg o) :
    colls.Nodup → ∀ pre e post c, seg = pre ++ e :: post → e.isCopy = true →
      e.ns = some (db, c) → ∀ e2 ∈ post, ¬ (e2.isIndexOp = true ∧ e2.ns = some (db, c)) := by
  induction h with
  | done => intro _ pre e post c hseg; simp at hseg
  | skip _ _ ih => intro hnd; exact ih (List.nodup_cons.mp hnd).2
  | @listFail c0 rest err hs _ =>
    intro _ pre e post c hseg he _
    have hmem : e ∈ [Event.indexes p.srcSession db c0 (some err)] := by rw [hseg]; simp
    simp only [List.mem_singleton] at hmem
    subst hmem
    cases he
  | @ensureFail c0 rest idxs pre0 post0 i err hs _ _ _ _ =>
    intro _ pre e post c hseg he _
    have hmem : e ∈ indexEvents p.srcSession p.dstSession db c0 pre0
        ++ [Event.ensureIndex p.dstSession db c0 i (some err)] := by rw [hseg]; simp
    rcases List.mem_append.mp hmem with hm | hm
    · have := (indexEv_index hm).2.2.1
      rw [he] at this; cases this
    · simp only [List.mem_singleton] at hm
      subst hm
      cases he
  | @stuck c0 rest idxs steps hs hidx hens _ hsteps =>
    intro _ pre e post c hseg he hns e2 he2 hcon
    rw [List.append_assoc] at hseg
    have hsp := coll_part_split hsteps hseg he
    have := hsp.2 e2 he2
    rw [hcon.1] at this
    cases this
  | @copied c0 rest idxs steps seg o hs hidx hens hsteps _ hrest ih =>
    intro hnd pre e post c hseg he hns e2 he2 hcon
    rcases split_append hseg with ⟨post1, h1, h3⟩ | ⟨pre1, h1, h2⟩
    · rw [List.append_assoc] at h1
      have hsp := coll_part_split hsteps h1 he
      have hmem : e ∈ copyInitEvents p.srcSession db c0 w.numCPU ++ steps := by
        have h0 : e ∈ indexEvents p.srcSession p.dstSession db c0 idxs
            ++ (copyInitEvents p.srcSession db c0 w.numCPU ++ steps) := by rw [h1]; simp
        rcases List.mem_append.mp h0 with hm | hm
        · have := (indexEv_index hm).2.2.1
          rw [he] at this; cases this
        · exact hm
      have hc : c = c0 := by
        have := (mem_copy_part hsteps hmem).2.1
        rw [hns] at this
        simp only [Option.some.injEq, Prod.mk.injEq] at this
        exact this.2
      subst hc
      rw [h3] at he2
      rcases List.mem_append.mp he2 with hm | hm
      · have := hsp.2 e2 hm
        rw [hcon.1] at this
        cases this
      · obtain ⟨c2, hc2, _, k2, _⟩ := collsRun_events hrest e2 hm
        rw [hcon.2] at k2
        simp only [Option.some.injEq, Prod.mk.injEq, true_and] at k2
        subst k2
        exact (List.nodup_cons.mp hnd).1 hc2
    · exact ih (List.nodup_cons.mp hnd).2 pre1 e post c h2 he hns e2 he2 hcon

theorem failure_isIndexOp {e : Event} {err : Error} (h : e.failure = some err) :
    e.isIndexOp = true := by
  cases e <;> simp_all [Event.failure, Event.isIndexOp]

theorem indexEv_no_failure {src dst : Session} {db c : String} {idxs : List Index} {e : Event}
    (h : e ∈ indexEvents src dst db c idxs) : e.failure = none := by
  rcases (indexEv_index h).2.2.2 with rfl | ⟨i, _, rfl⟩ <;> rfl

theorem coll_part_no_failure {src dst : Session} {db c : String} {n : Nat}
    {idxs : List Index} {steps : List Event} {e : Event}
    (hsteps : ∀ e ∈ steps, StepEv src dst db c e)
    (h : e ∈ indexEvents src dst db c idxs ++ copyInitEvents src db c n ++ steps) :
    e.failure = none := by
  rw [List.append_assoc] at h
  rcases List.mem_append.mp h with h | h
  · exact indexEv_no_failure h
  · have h1 := (mem_copy_part hsteps h).2.2
    cases hf : e.failure with
    | none => rfl
    | some err => rw [failure_isIndexOp hf] at h1; cases h1

/-- A failed index listing or index creation ends the collection loop on the spot. -/
theorem collsRun_fail {w : World} {p : Synchronizer} {db : String}
    {colls : List String} {seg : List Event} {o : Outcome} (h : CollsRun w p db colls seg o) :
    ∀ f ∈ seg, ∀ c err, f.ns = some (db, c) → f.failure = some err →
      o = Outcome.returned (some err) ∧ (∃ pre, seg = pre ++ [f]) ∧
      (∀ e ∈ seg, e.isCopy = true → e.ns ≠ some (db, c)) ∧
      (w.indexes p.srcSession db c = .error err ∨
        ∃ idxs i, w.indexes p.srcSession db c = .ok idxs ∧ i ∈ idxs ∧
          w.ensureIndex p.dstSession db c i = some err) := by
  induction h with
  | done => intro f hf; simp at hf
  | skip _ _ ih => exact ih
  | @listFail c0 rest err0 hs hidx =>
    intro f hf c err hns hfail
    simp only [List.mem_singleton] at hf
    subst hf
    simp only [Event.ns, Option.some.injEq, Prod.mk.injEq, true_and] at hns
    simp only [Event.failure, Option.some.injEq] at hfail
    subst hns hfail
    refine ⟨rfl, ⟨[], rfl⟩, ?_, Or.inl hidx⟩
    intro e he hc
    simp only [List.mem_singleton] at he
    subst he
    cases hc
  | @ensureFail c0 rest idxs pre0 post0 i err0 hs hidx hsplit hpre hi =>
    intro f hf c err hns hfail
    rcases List.mem_append.mp hf with hm | hm
    · rw [indexEv_no_failure hm] at hfail; cases hfail
    · simp only [List.mem_singleton] at hm
      subst hm
      simp only [Event.ns, Option.some.injEq, Prod.mk.injEq, true_and] at hns
      simp only [Event.failure, Option.some.injEq] at hfail
      subst hns hfail
      refine ⟨rfl, ⟨_, rfl⟩, ?_, Or.inr ⟨idxs, i, hidx, by rw [hsplit]; simp, hi⟩⟩
      intro e he hc
      rcases List.mem_append.mp he with hm | hm
      · have := (indexEv_index hm).2.2.1
        rw [hc] at this; cases this
      · simp only [List.mem_singleton] at hm
        subst hm
        cases hc
  | @stuck c0 rest idxs steps hs hidx hens _ hsteps =>
    intro f hf c err hns hfail
    rw [coll_part_no_failure hsteps hf] at hfail
    cases hfail
  | @copied c0 rest idxs steps seg o hs hidx hens hsteps _ hrest ih =>
    intro f hf c err hns hfail
    rcases List.mem_append.mp hf with hm | hm
    · rw [coll_part_no_failure hsteps hm] at hfail
      cases hfail
    · obtain ⟨k1, ⟨pre, k2⟩, k3, k4⟩ := ih f hm c err hns hfail
      have hne : c0 ≠ c := by
        intro heq
        subst heq
        rcases k4 with k4 | ⟨idxs2, i, k5, k6, k7⟩
        · rw [hidx] at k4; cases k4
        · rw [hidx] at k5
          simp only [Except.ok.injEq] at k5
          subst k5
          rw [hens i k6] at k7
          cases k7
      refine ⟨k1, ⟨(indexEvents p.srcSession p.dstSession db c0 idxs
        ++ copyInitEvents p.srcSession db c0 w.numCPU ++ steps) ++ pre,
        by rw [k2]; simp⟩, ?_, k4⟩
      intro e he hc hns2
      rcases List.mem_append.mp he with hm2 | hm2
      · rw [List.append_assoc] at hm2
        rcases List.mem_append.mp hm2 with hm3 | hm3
        · have := (indexEv_index hm3).2.2.1
          rw [hc] at this; cases this
        · have := (mem_copy_part hsteps hm3).2.1
          rw [hns2] at this
          simp only [Option.some.injEq, Prod.mk.injEq, true_and] at this
          exact hne this.symm
      · exact k3 e hm2 hc hns2

/-! ## Lemmas: the namespaces that get copied -/

theorem indexRuns_append (a b : List Event) : indexRuns (a ++ b) = indexRuns a ++ indexRuns b := by
  simp [indexRuns, List.filterMap_append]

theorem copyRuns_append (a b : List Event) : copyRuns (a ++ b) = copyRuns a ++ copyRuns b := by
  simp [copyRuns, List.filterMap_append]

theorem indexRuns_indexEvents (src dst : Session) (db c : String) (idxs : List Index) :
    indexRuns (indexEvents src dst db c idxs) = [(db, c)] := by
  simp only [indexRuns, indexEvents, List.filterMap_cons]
  congr 1
  rw [List.filterMap_eq_nil_iff]
  intro a ha
  obtain ⟨i, _, rfl⟩ := List.mem_map.mp ha
  rfl

theorem copyRuns_indexEvents (src dst : Session) (db c : String) (idxs : List Index) :
    copyRuns (indexEvents src dst db c idxs) = [] := by
  simp only [copyRuns]
  rw [List.filterMap_eq_nil_iff]
  intro a ha
  rcases (indexEv_index ha).2.2.2 with rfl | ⟨i, _, rfl⟩ <;> rfl

theorem indexRuns_copy_part {src dst : Session} {db c : String} {n : Nat}
    {steps : List Event} (hsteps : ∀ e ∈ steps, StepEv src dst db c e) :
    indexRuns (copyInitEvents src db c n ++ steps) = [] := by
  simp only [indexRuns]
  rw [List.filterMap_eq_nil_iff]
  intro a ha
  have := (mem_copy_part hsteps ha).2.2
  cases a <;> simp_all [Event.isIndexOp]

theorem copyRuns_copy_part {src dst : Session} {db c : String} {n : Nat}
    {steps : List Event} (hsteps : ∀ e ∈ steps, StepEv src dst db c e) :
    copyRuns (copyInitEvents src db c n ++ steps) = [(db, c)] := by
  have h1 : copyRuns steps = [] := by
    simp only [copyRuns]
    rw [List.filterMap_eq_nil_iff]
    intro a ha
    have := hsteps a ha
    cases a <;> simp_all [StepEv]
  have h2 : copyRuns ((List.range' 0 n).map (fun i => Event.spawn i db c)) = [] := by
    simp only [copyRuns]
    rw [List.filterMap_eq_nil_iff]
    intro a ha
    obtain ⟨i, _, rfl⟩ := List.mem_map.mp ha
    rfl
  rw [copyRuns_append, h1, copyInitEvents, copyRuns_append, h2]
  rfl

/-- The collections the loop of `syncDatabase` does not pass over. -/
theorem collsRun_all_ok {w : World} {p : Synchronizer} {db : String}
    {colls : List String} {seg : List Event} {o : Outcome} (h : CollsRun w p db colls seg o)
    (hok : ∀ e ∈ seg, e.failed = false) (hn : 0 < w.numCPU) :
    o = Outcome.returned none ∧
    indexRuns seg = (colls.filter fun c => decide (¬ "system.".data <+: c.data)).map
      (fun c => (db, c)) ∧
    copyRuns seg = (colls.filter fun c => decide (¬ "system.".data <+: c.data)).map
      (fun c => (db, c)) := by
  induction h with
  | done => simp [indexRuns, copyRuns]
  | @skip c rest seg o hs _ ih =>
    have hp : "system.".data <+: c.data := (stringsIndex_eq_zero_iff c "system.").mp hs
    simpa [List.filter_cons, hp] using ih hok
  | @listFail c rest err _ h1 =>
    have := hok (Event.indexes p.srcSession db c (some err)) (by simp)
    cases this
  | @ensureFail c rest idxs pre post i err _ _ _ _ h1 =>
    have := hok (Event.ensureIndex p.dstSession db c i (some err)) (by simp)
    cases this
  | @stuck c rest idxs steps _ _ _ h0 _ => omega
  | @copied c rest idxs steps seg o hs _ _ hsteps _ _ ih =>
    have hp : ¬ "system.".data <+: c.data :=
      fun hp => hs ((stringsIndex_eq_zero_iff c "system.").mpr hp)
    obtain ⟨k1, k2, k3⟩ := ih (fun e he => hok e (List.mem_append_right _ he))
    refine ⟨k1, ?_, ?_⟩
    · rw [indexRuns_append, List.append_assoc, indexRuns_append, indexRuns_indexEvents,
        indexRuns_copy_part hsteps, k2]
      simp [List.filter_cons, hp]
    · rw [copyRuns_append, List.append_assoc, copyRuns_append, copyRuns_indexEvents,
        copyRuns_copy_part hsteps, k3]
      simp [List.filter_cons, hp]

/-! ## Lemmas: the shape of the trace of `syncDatabases` -/

theorem syncDatabase_run (w : World) (db : String) (s : State) :
    (syncDatabase w db s).2.sync = s.sync ∧
    ((∃ err, w.collectionNames s.sync.srcSession db = .error err ∧
        (syncDatabase w db s).2.trace
          = s.trace ++ [Event.collectionNames s.sync.srcSession db (some err)] ∧
        (syncDatabase w db s).1 = Outcome.returned (some err)) ∨
      (∃ colls seg, w.collectionNames s.sync.srcSession db = .ok colls ∧
        (syncDatabase w db s).2.trace
          = s.trace ++ Event.collectionNames s.sync.srcSession db none :: seg ∧
        CollsRun w s.sync db colls seg (syncDatabase w db s).1)) := by
  unfold syncDatabase
  cases hc : w.collectionNames s.sync.srcSession db with
  | error err => exact ⟨rfl, Or.inl ⟨err, rfl, rfl, rfl⟩⟩
  | ok colls =>
    simp only
    obtain ⟨h1, seg, h2, h3⟩ := syncCollections_run w db colls
      (s.emit (Event.collectionNames s.sync.srcSession db none))
    refine ⟨h1, Or.inr ⟨colls, seg, rfl, ?_, h3⟩⟩
    rw [h2]
    simp [State.emit]

theorem syncDatabasesLoop_run (w : World) : ∀ (dbs : List String) (s : State),
    (syncDatabasesLoop w dbs s).2.sync = s.sync ∧
    ∃ seg, (syncDatabasesLoop w dbs s).2.trace = s.trace ++ seg ∧
      DbsRun w s.sync dbs seg (syncDatabasesLoop w dbs s).1
  | [], s => ⟨rfl, [], by simp [syncDatabasesLoop], DbsRun.done⟩
  | db :: rest, s => by
    unfold syncDatabasesLoop
    by_cases hx : db ≠ "local" ∧ db ≠ "admin"
    · have hb : (db != "local" && db != "admin") = true := by simpa using hx
      simp only [hb, if_true]
      obtain ⟨d1, d2⟩ := syncDatabase_run w db s
      cases hres : syncDatabase w db s with
      | mk o s1 =>
        rw [hres] at d1 d2
        simp only at d1 d2
        cases o with
        | noReturn =>
          simp only
          rcases d2 with ⟨err, _, _, k3⟩ | ⟨colls, seg, k1, k2, k3⟩
          · cases k3
          · exact ⟨d1, _, k2, DbsRun.stuck hx.1 hx.2 k1 k3⟩
        | returned r =>
          simp only
          obtain ⟨r1, seg2, r2, r3⟩ := syncDatabasesLoop_run w rest s1
          rw [d1] at r1 r3
          rcases d2 with ⟨err, k1, k2, _⟩ | ⟨colls, seg, k1, k2, k3⟩
          · refine ⟨r1, _, ?_, DbsRun.listFail hx.1 hx.2 k1 r3⟩
            rw [r2, k2]; simp
          · refine ⟨r1, _, ?_, DbsRun.synced hx.1 hx.2 k1 k3 r3⟩
            rw [r2, k2]; simp
    · have hb : (db != "local" && db != "admin") = false := by
        simp only [ne_eq, not_and_or, not_not] at hx
        rcases hx with hx | hx <;> simp [hx]
      simp only [hb, Bool.false_eq_true, if_false]
      obtain ⟨r1, seg, r2, r3⟩ := syncDatabasesLoop_run w rest s
      refine ⟨r1, seg, r2, DbsRun.skip ?_ r3⟩
      simp only [ne_eq, not_and_or, not_not] at hx
      exact hx

theorem isBulk_of {e : Event} (h : e.isIndexOp = true ∨ e.isCopy = true) :
    e.isBulk = true := by
  cases e <;> simp [Event.isBulk, Event.isIndexOp, Event.isCopy] at h ⊢

theorem specNamespaces_cons_skip {db : String} (rest : List String)
    (colls : String → List String) (h : db = "local" ∨ db = "admin") :
    specNamespaces (db :: rest) colls = specNamespaces rest colls := by
  have hf : decide (db ≠ "admin" ∧ db ≠ "local") = false := by
    rcases h with h | h <;> simp [h]
  simp only [specNamespaces, List.filter_cons, hf, Bool.false_eq_true, if_false]

theorem specNamespaces_cons_keep {db : String} (rest : List String)
    (colls : String → List String) (h1 : db ≠ "local") (h2 : db ≠ "admin") :
    specNamespaces (db :: rest) colls
      = ((colls db).filter fun c => decide (¬ "system.".data <+: c.data)).map
          (fun c => (db, c)) ++ specNamespaces rest colls := by
  have ht : decide (db ≠ "admin" ∧ db ≠ "local") = true := by simp [h1, h2]
  simp only [specNamespaces, List.filter_cons, ht, if_true, List.flatMap_cons]

/-- Every event of the database loop is the listing of the collections of a database other
than `local` and `admin`, or an index or copy event of a collection of such a database
whose name does not start with `system.`. -/
theorem dbsRun_events {w : World} {p : Synchronizer} {dbs : List String}
    {seg : List Event} {o : Outcome} (h : DbsRun w p dbs seg o) :
    ∀ e ∈ seg, e.isBulk = true ∧ ∀ d c, e.ns = some (d, c) →
      d ∈ dbs ∧ d ≠ "local" ∧ d ≠ "admin" ∧ stringsIndex c "system." ≠ 0 ∧
        ∃ colls, w.collectionNames p.srcSession d = .ok colls ∧ c ∈ colls := by
  induction h with
  | done => intro e he; simp at he
  | skip _ _ ih =>
    intro e he
    obtain ⟨k1, k2⟩ := ih e he
    refine ⟨k1, fun d c hns => ?_⟩
    obtain ⟨m1, m2⟩ := k2 d c hns
    exact ⟨List.mem_cons_of_mem _ m1, m2⟩
  | listFail _ _ _ _ ih =>
    intro e he
    rcases List.mem_cons.mp he with rfl | he
    · exact ⟨rfl, fun d c hns => by simp [Event.ns] at hns⟩
    · obtain ⟨k1, k2⟩ := ih e he
      refine ⟨k1, fun d c hns => ?_⟩
      obtain ⟨m1, m2⟩ := k2 d c hns
      exact ⟨List.mem_cons_of_mem _ m1, m2⟩
  | @synced db rest colls cseg seg o r h1 h2 h3 hc _ ih =>
    intro e he
    rcases List.mem_cons.mp he with rfl | he
    · exact ⟨rfl, fun d c hns => by simp [Event.ns] at hns⟩
    · rcases List.mem_append.mp he with he | he
      · obtain ⟨c0, m1, m2, m3, m4⟩ := collsRun_events hc e he
        refine ⟨isBulk_of m4, fun d c hns => ?_⟩
        · rw [m3] at hns
          simp only [Option.some.injEq, Prod.mk.injEq] at hns
          obtain ⟨rfl, rfl⟩ := hns
          exact ⟨by simp, h1, h2, m2, colls, h3, m1⟩
      · obtain ⟨k1, k2⟩ := ih e he
        refine ⟨k1, fun d c hns => ?_⟩
        obtain ⟨m1, m2⟩ := k2 d c hns
        exact ⟨List.mem_cons_of_mem _ m1, m2⟩
  | @stuck db rest colls cseg h1 h2 h3 hc =>
    intro e he
    rcases List.mem_cons.mp he with rfl | he
    · exact ⟨rfl, fun d c hns => by simp [Event.ns] at hns⟩
    · obtain ⟨c0, m1, m2, m3, m4⟩ := collsRun_events hc e he
      refine ⟨isBulk_of m4, fun d c hns => ?_⟩
      · rw [m3] at hns
        simp only [Option.some.injEq, Prod.mk.injEq] at hns
        obtain ⟨rfl, rfl⟩ := hns
        exact ⟨by simp, h1, h2, m2, colls, h3, m1⟩

theorem collsRun_stuck {w : World} {p : Synchronizer} {db : String} {colls : List String}
    {seg : List Event} {o : Outcome} (h : CollsRun w p db colls seg o) :
    o = Outcome.noReturn → w.numCPU = 0 := by
  induction h with
  | done => intro h; cases h
  | skip _ _ ih => exact ih
  | listFail _ _ => intro h; cases h
  | ensureFail _ _ _ _ _ => intro h; cases h
  | stuck _ _ _ h0 _ => intro _; exact h0
  | copied _ _ _ _ _ _ ih => exact ih

theorem dbsRun_outcome {w : World} {p : Synchronizer} {dbs : List String}
    {seg : List Event} {o : Outcome} (h : DbsRun w p dbs seg o) :
    (o = Outcome.returned none ∨ o = Outcome.noReturn) ∧
      (o = Outcome.noReturn → w.numCPU = 0) := by
  induction h with
  | done => exact ⟨Or.inl rfl, fun h => by cases h⟩
  | skip _ _ ih => exact ih
  | listFail _ _ _ _ ih => exact ih
  | synced _ _ _ _ _ ih => exact ih
  | stuck _ _ _ hc => exact ⟨Or.inr rfl, fun _ => collsRun_stuck hc rfl⟩

theorem dbsRun_all_ok {w : World} {p : Synchronizer} {dbs : List String}
    {seg : List Event} {o : Outcome} (h : DbsRun w p dbs seg o)
    (hok : ∀ e ∈ seg, e.failed = false) (hn : 0 < w.numCPU) :
    o = Outcome.returned none ∧
      indexRuns seg = specNamespaces dbs (collectionList w p.srcSession) ∧
      copyRuns seg = specNamespaces dbs (collectionList w p.srcSession) := by
  induction h with
  | done => simp [indexRuns, copyRuns, specNamespaces]
  | @skip db rest seg o hx _ ih =>
    rw [specNamespaces_cons_skip rest _ hx]
    exact ih hok
  | @listFail db rest seg o err _ _ h3 _ _ =>
    have := hok (Event.collectionNames p.srcSession db (some err)) (by simp)
    cases this
  | @synced db rest cl cseg seg o r h1 h2 h3 hc _ ih =>
    obtain ⟨_, k2, k3⟩ := collsRun_all_ok hc
      (fun e he => hok e (List.mem_cons_of_mem _ (List.mem_append_left _ he))) hn
    obtain ⟨m1, m2, m3⟩ := ih
      (fun e he => hok e (List.mem_cons_of_mem _ (List.mem_append_right _ he)))
    have hcl : collectionList w p.srcSession db = cl := by
      simp only [collectionList, h3]
    rw [specNamespaces_cons_keep rest _ h1 h2, hcl]
    refine ⟨m1, ?_, ?_⟩
    · rw [show Event.collectionNames p.srcSession db none :: cseg ++ seg
          = [Event.collectionNames p.srcSession db none] ++ (cseg ++ seg) from rfl,
        indexRuns_append, indexRuns_append, k2, m2]
      rfl
    · rw [show Event.collectionNames p.srcSession db none :: cseg ++ seg
          = [Event.collectionNames p.srcSession db none] ++ (cseg ++ seg) from rfl,
        copyRuns_append, copyRuns_append, k3, m3]
      rfl
  | @stuck db rest cl cseg _ _ _ hc =>
    have := collsRun_stuck hc rfl
    omega

theorem syncDatabases_run (w : World) (s : State) :
    (syncDatabases w s).2.sync = s.sync ∧
    ((∃ err, w.databaseNames s.sync.srcSession = .error err ∧
        (syncDatabases w s).2.trace
          = s.trace ++ [Event.databaseNames s.sync.srcSession (some err)] ∧
        (syncDatabases w s).1 = Outcome.returned (some err)) ∨
      (∃ dbs seg, w.databaseNames s.sync.srcSession = .ok dbs ∧
        (syncDatabases w s).2.trace
          = s.trace ++ Event.databaseNames s.sync.srcSession none :: seg ∧
        DbsRun w s.sync dbs seg (syncDatabases w s).1)) := by
  unfold syncDatabases
  cases hc : w.databaseNames s.sync.srcSession with
  | error err => exact ⟨rfl, Or.inl ⟨err, rfl, rfl, rfl⟩⟩
  | ok dbs =>
    simp only
    obtain ⟨h1, seg, h2, h3⟩ := syncDatabasesLoop_run w dbs
      (s.emit (Event.databaseNames s.sync.srcSession none))
    refine ⟨h1, Or.inr ⟨dbs, seg, rfl, ?_, h3⟩⟩
    rw [h2]
    simp [State.emit]

theorem writeNs_ns {e : Event} {x : String × String} (h : e.writeNs = some x) :
    e.ns = some x := by
  cases e <;> simp_all [Event.writeNs, Event.ns]

theorem not_system_of_index {c : String} (h : stringsIndex c "system." ≠ 0) :
    ¬ "system.".data <+: c.data :=
  fun hp => h ((stringsIndex_eq_zero_iff c "system.").mpr hp)

/-! ## The claims -/

/-- C1: whatever database and collection names the source lists, every index creation
and every insert issued by `syncDatabases` goes to a namespace whose database is neither
`admin` nor `local` and whose collection name does not have the prefix `system.`; and
every one issued by `syncDatabase(dbname)` goes to database `dbname` and to a collection
whose name does not have that prefix. -/
theorem C1_internal_namespaces_not_written (w : World) (s : State) :
    (∀ seg, (syncDatabases w s).2.trace = s.trace ++ seg → ∀ e ∈ seg, ∀ db coll,
        e.writeNs = some (db, coll) →
        db ≠ "admin" ∧ db ≠ "local" ∧ ¬ "system.".data <+: coll.data) ∧
    (∀ dbname seg, (syncDatabase w dbname s).2.trace = s.trace ++ seg → ∀ e ∈ seg,
        ∀ db coll, e.writeNs = some (db, coll) →
        db = dbname ∧ ¬ "system.".data <+: coll.data) := by
  constructor
  · intro seg hseg e he db coll hw
    have hns := writeNs_ns hw
    rcases (syncDatabases_run w s).2 with ⟨err, _, k2, _⟩ | ⟨dbs, seg2, _, k2, k3⟩
    · rw [k2] at hseg
      have := List.append_cancel_left hseg
      subst this
      simp only [List.mem_singleton] at he
      subst he
      cases hw
    · rw [k2] at hseg
      have := List.append_cancel_left hseg
      subst this
      rcases List.mem_cons.mp he with rfl | he
      · cases hw
      · obtain ⟨_, m⟩ := dbsRun_events k3 e he
        obtain ⟨_, m2, m3, m4, _⟩ := m db coll hns
        exact ⟨m3, m2, not_system_of_index m4⟩
  · intro dbname seg hseg e he db coll hw
    have hns := writeNs_ns hw
    rcases (syncDatabase_run w dbname s).2 with ⟨err, _, k2, _⟩ | ⟨colls, seg2, _, k2, k3⟩
    · rw [k2] at hseg
      have := List.append_cancel_left hseg
      subst this
      simp only [List.mem_singleton] at he
      subst he
      cases hw
    · rw [k2] at hseg
      have := List.append_cancel_left hseg
      subst this
      rcases List.mem_cons.mp he with rfl | he
      · cases hw
      · obtain ⟨c, _, m2, m3, _⟩ := collsRun_events k3 e he
        rw [m3] at hns
        simp only [Option.some.injEq, Prod.mk.injEq] at hns
        obtain ⟨rfl, rfl⟩ := hns
        exact ⟨rfl, not_system_of_index m2⟩

/-- C1 in the demo deployment: an insert into `app.users`. -/
theorem C1_witness :
    Event.insert 0 2 "app" "users" 3 none ∈ (syncDatabases demoWorld demoState).2.trace ∧
    ("app" ≠ "admin" ∧ "app" ≠ "local" ∧ ¬ "system.".data <+: "users".data) :=
  ⟨by decide,
    (C1_internal_namespaces_not_written demoWorld demoState).1
      (syncDatabases demoWorld demoState).2.trace rfl
      (Event.insert 0 2 "app" "users" 3 none) (by decide) "app" "users" rfl⟩

/-- C2: in the events of `syncDatabase`, every event of the document copy of a
collection (a worker started, the cursor opened or read, a document handed to the workers,
an insert) comes after a successful `EnsureIndex` for every index definition that the
source lists on that collection; and when the source lists no collection twice, no index
listing or creation for that collection comes after such an event. -/
theorem C2_indexes_before_documents (w : World) (s : State) (dbname : String)
    (seg pre post : List Event) (e : Event) (coll : String)
    (hseg : (syncDatabase w dbname s).2.trace = s.trace ++ seg)
    (hsplit : seg = pre ++ e :: post) (he : e.isCopy = true)
    (hns : e.ns = some (dbname, coll)) :
    (∃ indexes, w.indexes s.sync.srcSession dbname coll = .ok indexes ∧
      ∀ index ∈ indexes, w.ensureIndex s.sync.dstSession dbname coll index = none ∧
        Event.ensureIndex s.sync.dstSession dbname coll index none ∈ pre) ∧
    (∀ collnames, w.collectionNames s.sync.srcSession dbname = .ok collnames →
      collnames.Nodup →
      ∀ e2 ∈ post, ¬ (e2.isIndexOp = true ∧ e2.ns = some (dbname, coll))) := by
  rcases (syncDatabase_run w dbname s).2 with ⟨err, _, k2, _⟩ | ⟨colls, seg2, k1, k2, k3⟩
  · rw [k2] at hseg
    have := List.append_cancel_left hseg
    subst this
    have hmem : e ∈ [Event.collectionNames s.sync.srcSession dbname (some err)] := by
      rw [hsplit]; simp
    simp only [List.mem_singleton] at hmem
    subst hmem
    cases he
  · rw [k2] at hseg
    have := List.append_cancel_left hseg
    subst this
    have hsp : [Event.collectionNames s.sync.srcSession dbname none] ++ seg2
        = pre ++ e :: post := hsplit
    rcases split_append hsp with ⟨post1, h1, _⟩ | ⟨pre1, h1, h2⟩
    · have hmem : e ∈ [Event.collectionNames s.sync.srcSession dbname none] := by
        rw [h1]; simp
      simp only [List.mem_singleton] at hmem
      subst hmem
      cases he
    · constructor
      · obtain ⟨idxs, m1, m2⟩ := collsRun_indexed_before k3 pre1 e post coll h2 he hns
        refine ⟨idxs, m1, fun i hi => ⟨(m2 i hi).1, ?_⟩⟩
        rw [h1]
        exact List.mem_append_right _ (m2 i hi).2
      · intro collnames hc hnd
        rw [k1] at hc
        simp only [Except.ok.injEq] at hc
        subst hc
        exact collsRun_no_index_after k3 hnd pre1 e post coll h2 he hns

/-- C2 in the demo deployment, at the first document of `app.users` handed to the workers. -/
theorem C2_witness :
    (∃ indexes, demoWorld.indexes 1 "app" "users" = .ok indexes ∧
      ∀ index ∈ indexes, demoWorld.ensureIndex 2 "app" "users" index = none ∧
        Event.ensureIndex 2 "app" "users" index none
          ∈ (syncDatabase demoWorld "app" demoState).2.trace.take 9) ∧
    (∀ collnames, demoWorld.collectionNames 1 "app" = .ok collnames → collnames.Nodup →
      ∀ e2 ∈ (syncDatabase demoWorld "app" demoState).2.trace.drop 10,
        ¬ (e2.isIndexOp = true ∧ e2.ns = some ("app", "users"))) :=
  C2_indexes_before_documents demoWorld demoState "app"
    (syncDatabase demoWorld "app" demoState).2.trace
    ((syncDatabase demoWorld "app" demoState).2.trace.take 9)
    ((syncDatabase demoWorld "app" demoState).2.trace.drop 10)
    (Event.send "app" "users" 1) "users" rfl (by decide) rfl rfl

theorem syncDatabase_returns (w : World) (db : String) (s : State) (hn : 0 < w.numCPU) :
    ∃ r, (syncDatabase w db s).1 = Outcome.returned r := by
  rcases (syncDatabase_run w db s).2 with ⟨err, _, _, k3⟩ | ⟨colls, seg, _, _, k3⟩
  · exact ⟨_, k3⟩
  · cases ho : (syncDatabase w db s).1 with
    | returned r => exact ⟨r, rfl⟩
    | noReturn =>
      rw [ho] at k3
      have := collsRun_stuck k3 rfl
      omega

theorem syncDatabase_prefix (w : World) (db : String) (s : State) :
    s.trace <+: (syncDatabase w db s).2.trace := by
  rcases (syncDatabase_run w db s).2 with ⟨err, _, k2, _⟩ | ⟨colls, seg, _, k2, _⟩
  · exact ⟨_, k2.symm⟩
  · exact ⟨_, k2.symm⟩

theorem syncDatabasesLoop_runs_each (w : World) (hn : 0 < w.numCPU) :
    ∀ (dbs : List String) (s : State), ∀ db ∈ dbs, db ≠ "local" → db ≠ "admin" →
      ∃ s1, s1.sync = s.sync ∧ s.trace <+: s1.trace ∧
        (syncDatabase w db s1).2.trace <+: (syncDatabasesLoop w dbs s).2.trace
  | [], s, db, hdb, _, _ => by simp at hdb
  | d :: rest, s, db, hdb, h1, h2 => by
    unfold syncDatabasesLoop
    by_cases hx : d ≠ "local" ∧ d ≠ "admin"
    · have hb : (d != "local" && d != "admin") = true := by simpa using hx
      simp only [hb, if_true]
      obtain ⟨r, hr⟩ := syncDatabase_returns w d s hn
      have hsync := (syncDatabase_run w d s).1
      have hpre := syncDatabase_prefix w d s
      cases hres : syncDatabase w d s with
      | mk o s1 =>
        rw [hres] at hr hsync hpre
        simp only at hr hsync hpre
        subst hr
        simp only
        obtain ⟨_, seg, k2, _⟩ := syncDatabasesLoop_run w rest s1
        rcases List.mem_cons.mp hdb with rfl | hmem
        · refine ⟨s, rfl, List.prefix_refl _, ?_⟩
          rw [hres]
          exact ⟨seg, k2.symm⟩
        · obtain ⟨s2, m1, m2, m3⟩ := syncDatabasesLoop_runs_each w hn rest s1 db hmem h1 h2
          exact ⟨s2, by rw [m1, hsync], List.IsPrefix.trans hpre m2, m3⟩
    · have hb : (d != "local" && d != "admin") = false := by
        simp only [ne_eq, not_and_or, not_not] at hx
        rcases hx with hx | hx <;> simp [hx]
      simp only [hb, Bool.false_eq_true, if_false]
      rcases List.mem_cons.mp hdb with rfl | hmem
      · exact absurd ⟨h1, h2⟩ hx
      · exact syncDatabasesLoop_runs_each w hn rest s db hmem h1 h2

/-- C3, as the code has it: a failed index listing or index creation is the last event of
`syncDatabase`, which returns that error at once, so nothing is run for the collections
that follow in the same database; and `syncDatabases` returns nil after running
`syncDatabase` in full on every database of the listing other than `local` and `admin`,
whatever failed in the databases before. -/
theorem C3_failure_ends_database_not_sync (w : World) (s : State) :
    (∀ dbname seg f coll err, (syncDatabase w dbname s).2.trace = s.trace ++ seg →
      f ∈ seg → f.ns = some (dbname, coll) → f.failure = some err →
      (syncDatabase w dbname s).1 = Outcome.returned (some err) ∧ ∃ pre, seg = pre ++ [f]) ∧
    (∀ dbnames, w.databaseNames s.sync.srcSession = .ok dbnames →
      (syncDatabases w s).1 = Outcome.returned none ∧
      ∀ dbname ∈ dbnames, dbname ≠ "local" → dbname ≠ "admin" →
        ∃ s1, s1.sync = s.sync ∧ s.trace <+: s1.trace ∧
          (syncDatabase w dbname s1).2.trace <+: (syncDatabases w s).2.trace) := by
  constructor
  · intro dbname seg f coll err hseg hf hns hfail
    rcases (syncDatabase_run w dbname s).2 with ⟨e0, _, k2, _⟩ | ⟨colls, seg2, _, k2, k3⟩
    · rw [k2] at hseg
      have := List.append_cancel_left hseg
      subst this
      simp only [List.mem_singleton] at hf
      subst hf
      cases hns
    · rw [k2] at hseg
      have := List.append_cancel_left hseg
      subst this
      rcases List.mem_cons.mp hf with rfl | hf
      · cases hns
      · obtain ⟨m1, ⟨pre, m2⟩, _, _⟩ := collsRun_fail k3 f hf coll err hns hfail
        exact ⟨m1, Event.collectionNames s.sync.srcSession dbname none :: pre, by rw [m2]; rfl⟩
  · intro dbnames hdb
    have hn := w.numCPU_pos
    have hrun := syncDatabases_run w s
    rcases hrun.2 with ⟨err, k1, _, _⟩ | ⟨dbs, seg, k1, _, k3⟩
    · rw [hdb] at k1; cases k1
    · constructor
      · rcases (dbsRun_outcome k3).1 with h | h
        · exact h
        · have := (dbsRun_outcome k3).2 h
          omega
      · intro dbname hmem h1 h2
        obtain ⟨s1, m1, m2, m3⟩ := syncDatabasesLoop_runs_each w hn dbnames
          (s.emit (Event.databaseNames s.sync.srcSession none)) dbname hmem h1 h2
        refine ⟨s1, m1, List.IsPrefix.trans ⟨_, rfl⟩ m2, ?_⟩
        unfold syncDatabases
        rw [hdb]
        exact m3

/-- C3 as amended, in the deployment where an index creation on `app.a` fails. -/
theorem C3_witness :
    ((syncDatabase failWorld "app" demoState).1
        = Outcome.returned (some "cannot create index") ∧
      ∃ pre, (syncDatabase failWorld "app" demoState).2.trace
        = pre ++ [Event.ensureIndex 2 "app" "a" "by_email" (some "cannot create index")]) ∧
    ((syncDatabases failWorld demoState).1 = Outcome.returned none ∧
      ∀ dbname ∈ ["app", "shop"], dbname ≠ "local" → dbname ≠ "admin" →
        ∃ s1, s1.sync = demoState.sync ∧ demoState.trace <+: s1.trace ∧
          (syncDatabase failWorld dbname s1).2.trace
            <+: (syncDatabases failWorld demoState).2.trace) :=
  ⟨(C3_failure_ends_database_not_sync failWorld demoState).1 "app"
      (syncDatabase failWorld "app" demoState).2.trace
      (Event.ensureIndex 2 "app" "a" "by_email" (some "cannot create index")) "a"
      "cannot create index" rfl (by decide) rfl rfl,
    (C3_failure_ends_database_not_sync failWorld demoState).2 ["app", "shop"] rfl⟩

/-- C3 as stated fails: in database `app` with collections `a`, `b`, where creating an
index on `a` fails, `syncDatabase` returns after the failed creation and runs neither
index replication nor document copy for `b`: no event is about `app.b`. -/
theorem C3_counterexample :
    (NewSynchronizer failWorld demoConfig []).1 = some demoState.sync ∧
    failWorld.collectionNames 1 "app" = .ok ["a", "b"] ∧
    syncDatabase failWorld "app" demoState
      = (Outcome.returned (some "cannot create index"),
          { sync := demoState.sync,
            trace := [Event.collectionNames 1 "app" none,
              Event.indexes 1 "app" "a" none,
              Event.ensureIndex 2 "app" "a" "_id_" none,
              Event.ensureIndex 2 "app" "a" "by_email" (some "cannot create index")] }) ∧
    indexRuns (syncDatabase failWorld "app" demoState).2.trace = [("app", "a")] ∧
    copyRuns (syncDatabase failWorld "app" demoState).2.trace = [] ∧
    (∀ e ∈ (syncDatabase failWorld "app" demoState).2.trace, e.ns ≠ some ("app", "b")) :=
  ⟨rfl, rfl, rfl, rfl, rfl, by decide⟩

theorem collsRun_doomed {w : World} {p : Synchronizer} {db : String}
    {colls : List String} {seg : List Event} {o : Outcome} (h : CollsRun w p db colls seg o)
    (c : String)
    (hd : (∃ err, w.indexes p.srcSession db c = .error err) ∨
      ∃ idxs i, w.indexes p.srcSession db c = .ok idxs ∧ i ∈ idxs ∧
        w.ensureIndex p.dstSession db c i ≠ none) :
    (∀ e ∈ seg, e.isCopy = true → e.ns ≠ some (db, c)) ∧
    (c ∈ colls → stringsIndex c "system." ≠ 0 → o ≠ Outcome.returned none) := by
  have hne : ∀ c0 idxs, w.indexes p.srcSession db c0 = .ok idxs →
      (∀ j ∈ idxs, w.ensureIndex p.dstSession db c0 j = none) → c0 ≠ c := by
    intro c0 idxs h1 h2 heq
    subst heq
    rcases hd with ⟨err, k⟩ | ⟨idxs2, i, k1, k2, k3⟩
    · rw [h1] at k; cases k
    · rw [h1] at k1
      simp only [Except.ok.injEq] at k1
      subst k1
      exact k3 (h2 i k2)
  induction h with
  | done => exact ⟨fun e he => by simp at he, fun hc => by simp at hc⟩
  | @skip c0 rest seg o hs _ ih =>
    refine ⟨ih.1, fun hc hns => ih.2 ?_ hns⟩
    rcases List.mem_cons.mp hc with rfl | hc
    · exact absurd hs hns
    · exact hc
  | @listFail c0 rest err hs _ =>
    refine ⟨fun e he hc => ?_, fun _ _ ho => by cases ho⟩
    simp only [List.mem_singleton] at he
    subst he
    cases hc
  | @ensureFail c0 rest idxs pre post i err hs _ _ _ _ =>
    refine ⟨fun e he hc => ?_, fun _ _ ho => by cases ho⟩
    rcases List.mem_append.mp he with hm | hm
    · have := (indexEv_index hm).2.2.1
      rw [hc] at this; cases this
    · simp only [List.mem_singleton] at hm
      subst hm
      cases hc
  | @stuck c0 rest idxs steps hs hidx hens _ hsteps =>
    refine ⟨fun e he hc hns => ?_, fun _ _ ho => by cases ho⟩
    rw [List.append_assoc] at he
    rcases List.mem_append.mp he with hm | hm
    · have := (indexEv_index hm).2.2.1
      rw [hc] at this; cases this
    · have := (mem_copy_part hsteps hm).2.1
      rw [hns] at this
      simp only [Option.some.injEq, Prod.mk.injEq, true_and] at this
      exact hne c0 idxs hidx hens this.symm
  | @copied c0 rest idxs steps seg o hs hidx hens hsteps _ _ ih =>
    have hc0 := hne c0 idxs hidx hens
    refine ⟨fun e he hc hns => ?_, fun hc hns => ih.2 ?_ hns⟩
    · rcases List.mem_append.mp he with hm | hm
      · rw [List.append_assoc] at hm
        rcases List.mem_append.mp hm with hm2 | hm2
        · have := (indexEv_index hm2).2.2.1
          rw [hc] at this; cases this
        · have := (mem_copy_part hsteps hm2).2.1
          rw [hns] at this
          simp only [Option.some.injEq, Prod.mk.injEq, true_and] at this
          exact hc0 this.symm
      · exact ih.1 e hm hc hns
    · rcases List.mem_cons.mp hc with rfl | hc
      · exact absurd rfl hc0
      · exact hc

/-- C4: when listing the indexes of a collection fails, or an `EnsureIndex` on it fails,
with error `err`, then `syncDatabase` returns `err`, and no event of the document copy
of that collection occurs: no worker is started for it, its cursor is not opened or read,
none of its documents is handed to a worker or inserted. In terms of the environment:
a collection whose index listing fails, or one of whose listed indexes cannot be created,
never has a copy event, and if the database lists it (under a name that does not start
with `system.`) then `syncDatabase` returns a non-nil error. -/
theorem C4_index_failure_stops_copy (w : World) (s : State) (dbname : String)
    (seg : List Event) (coll : String)
    (hseg : (syncDatabase w dbname s).2.trace = s.trace ++ seg) :
    (∀ f ∈ seg, ∀ err,
      (f = Event.indexes s.sync.srcSession dbname coll (some err) ∨
        ∃ index, f = Event.ensureIndex s.sync.dstSession dbname coll index (some err)) →
      (syncDatabase w dbname s).1 = Outcome.returned (some err) ∧
      (∀ e ∈ seg, e.isCopy = true → e.ns ≠ some (dbname, coll))) ∧
    (((∃ err, w.indexes s.sync.srcSession dbname coll = .error err) ∨
        ∃ indexes index, w.indexes s.sync.srcSession dbname coll = .ok indexes ∧
          index ∈ indexes ∧ w.ensureIndex s.sync.dstSession dbname coll index ≠ none) →
      (∀ e ∈ seg, e.isCopy = true → e.ns ≠ some (dbname, coll)) ∧
      (∀ collnames, w.collectionNames s.sync.srcSession dbname = .ok collnames →
        coll ∈ collnames → ¬ "system.".data <+: coll.data →
        ∃ err, (syncDatabase w dbname s).1 = Outcome.returned (some err))) := by
  constructor
  · intro f hf err hfail
    have hns : f.ns = some (dbname, coll) := by
      rcases hfail with rfl | ⟨i, rfl⟩ <;> rfl
    have hfl : f.failure = some err := by
      rcases hfail with rfl | ⟨i, rfl⟩ <;> rfl
    rcases (syncDatabase_run w dbname s).2 with ⟨e0, _, k2, _⟩ | ⟨colls, seg2, _, k2, k3⟩
    · rw [k2] at hseg
      have := List.append_cancel_left hseg
      subst this
      simp only [List.mem_singleton] at hf
      subst hf
      cases hns
    · rw [k2] at hseg
      have := List.append_cancel_left hseg
      subst this
      rcases List.mem_cons.mp hf with rfl | hf
      · cases hns
      · obtain ⟨m1, _, m3, _⟩ := collsRun_fail k3 f hf coll err hns hfl
        refine ⟨m1, fun e he hc => ?_⟩
        rcases List.mem_cons.mp he with rfl | he
        · cases hc
        · exact m3 e he hc
  · intro hd
    rcases (syncDatabase_run w dbname s).2 with ⟨e0, k1, k2, _⟩ | ⟨colls, seg2, k1, k2, k3⟩
    · rw [k2] at hseg
      have := List.append_cancel_left hseg
      subst this
      refine ⟨fun e he hc => ?_, fun collnames hc => ?_⟩
      · simp only [List.mem_singleton] at he
        subst he
        cases hc
      · rw [k1] at hc; cases hc
    · rw [k2] at hseg
      have := List.append_cancel_left hseg
      subst this
      obtain ⟨m1, m2⟩ := collsRun_doomed k3 coll hd
      refine ⟨fun e he hc => ?_, fun collnames hc hmem hsys => ?_⟩
      · rcases List.mem_cons.mp he with rfl | he
        · cases hc
        · exact m1 e he hc
      · rw [k1] at hc
        simp only [Except.ok.injEq] at hc
        subst hc
        have hidx : stringsIndex coll "system." ≠ 0 :=
          fun h0 => hsys ((stringsIndex_eq_zero_iff coll "system.").mp h0)
        have hne := m2 hmem hidx
        cases ho : (syncDatabase w dbname s).1 with
        | returned r =>
          cases r with
          | none => exact absurd ho hne
          | some err => exact ⟨err, rfl⟩
        | noReturn =>
          rw [ho] at k3
          have h0 := collsRun_stuck k3 rfl
          have := w.numCPU_pos
          omega

/-- C4 in the deployment where an index creation on `app.a` fails. -/
theorem C4_witness :
    (syncDatabase failWorld "app" demoState).1
      = Outcome.returned (some "cannot create index") ∧
    (∀ e ∈ (syncDatabase failWorld "app" demoState).2.trace,
      e.isCopy = true → e.ns ≠ some ("app", "a")) :=
  (C4_index_failure_stops_copy failWorld demoState "app"
    (syncDatabase failWorld "app" demoState).2.trace "a" rfl).1
    (Event.ensureIndex 2 "app" "a" "by_email" (some "cannot create index")) (by decide)
    "cannot create index" (Or.inr ⟨"by_email", rfl⟩)

/-- C10: when no listing and no index operation fails, `syncDatabases` returns nil, and
the namespaces on which it starts index replication, and those on which it starts the
document copy, are in this order exactly the database list without `admin` and `local`,
each database expanded to its collection list without the names that have the prefix
`system.`. A collection is passed over exactly when `system.` is a prefix of its name:
`system` and `mysystem.x` are copied, `system.` and `system.indexes` are not; a database
is passed over exactly when its name is equal to `local` or `admin`, so `Admin` is
copied. -/
theorem C10_copied_namespaces (w : World) (s : State) (dbnames : List String)
    (seg : List Event) (hdb : w.databaseNames s.sync.srcSession = .ok dbnames)
    (hseg : (syncDatabases w s).2.trace = s.trace ++ seg)
    (hok : ∀ e ∈ seg, e.failed = false) :
    (syncDatabases w s).1 = Outcome.returned none ∧
    indexRuns seg = specNamespaces dbnames (collectionList w s.sync.srcSession) ∧
    copyRuns seg = specNamespaces dbnames (collectionList w s.sync.srcSession) ∧
    (∀ collname : String,
      (stringsIndex collname "system." == 0) = true ↔ "system.".data <+: collname.data) ∧
    (stringsIndex "system" "system." == 0) = false ∧
    (stringsIndex "mysystem.x" "system." == 0) = false ∧
    (stringsIndex "system." "system." == 0) = true ∧
    (stringsIndex "system.indexes" "system." == 0) = true ∧
    (∀ dbname : String, (dbname != "local" && dbname != "admin") = false ↔
      (dbname = "local" ∨ dbname = "admin")) ∧
    ("Admin" != "local" && "Admin" != "admin") = true := by
  have hn := w.numCPU_pos
  refine ⟨?_, ?_, ?_, ?_, by decide, by decide, by decide, by decide, ?_, by decide⟩
  · rcases (syncDatabases_run w s).2 with ⟨err, k1, _, _⟩ | ⟨dbs, seg2, k1, k2, k3⟩
    · rw [hdb] at k1; cases k1
    · rw [k2] at hseg
      have := List.append_cancel_left hseg
      subst this
      exact (dbsRun_all_ok k3 (fun e he => hok e (List.mem_cons_of_mem _ he)) hn).1
  · rcases (syncDatabases_run w s).2 with ⟨err, k1, _, _⟩ | ⟨dbs, seg2, k1, k2, k3⟩
    · rw [hdb] at k1; cases k1
    · rw [k2] at hseg
      have := List.append_cancel_left hseg
      subst this
      rw [hdb] at k1
      simp only [Except.ok.injEq] at k1
      subst k1
      have := (dbsRun_all_ok k3 (fun e he => hok e (List.mem_cons_of_mem _ he)) hn).2.1
      rw [← this]
      rfl
  · rcases (syncDatabases_run w s).2 with ⟨err, k1, _, _⟩ | ⟨dbs, seg2, k1, k2, k3⟩
    · rw [hdb] at k1; cases k1
    · rw [k2] at hseg
      have := List.append_cancel_left hseg
      subst this
      rw [hdb] at k1
      simp only [Except.ok.injEq] at k1
      subst k1
      have := (dbsRun_all_ok k3 (fun e he => hok e (List.mem_cons_of_mem _ he)) hn).2.2
      rw [← this]
      rfl
  · intro collname
    rw [beq_iff_eq]
    exact stringsIndex_eq_zero_iff collname "system."
  · intro dbname
    by_cases h1 : dbname = "local" <;> by_cases h2 : dbname = "admin" <;> simp [h1, h2]

/-- C10 in the demo deployment: `app.users` and `app.logs` are copied. -/
theorem C10_witness :
    (syncDatabases demoWorld demoState).1 = Outcome.returned none ∧
    indexRuns (syncDatabases demoWorld demoState).2.trace
      = specNamespaces ["admin", "app", "local"] (collectionList demoWorld 1) ∧
    specNamespaces ["admin", "app", "local"] (collectionList demoWorld 1)
      = [("app", "users"), ("app", "logs")] :=
  ⟨(C10_copied_namespaces demoWorld demoState ["admin", "app", "local"]
      (syncDatabases demoWorld demoState).2.trace rfl rfl (by decide)).1,
    (C10_copied_namespaces demoWorld demoState ["admin", "app", "local"]
      (syncDatabases demoWorld demoState).2.trace rfl rfl (by decide)).2.1,
    by decide⟩

theorem execActors_inv (w : World) (n : Nat) (base : State) (db coll : String)
    (all : List Doc) : ∀ (acts : List Actor) (c c2 : CopyState) (seg : List Event),
      CopyInv n base db coll all c seg → execActors w db coll n acts c = some c2 →
      ∃ seg2, CopyInv n base db coll all c2 (seg ++ seg2) ∧
        c2.measure n + acts.length = c.measure n
  | [], c, c2, seg, h, he => by
    simp only [execActors, Option.some.injEq] at he
    subst he
    exact ⟨[], by simpa using h, rfl⟩
  | a :: rest, c, c2, seg, h, he => by
    simp only [execActors] at he
    cases hst : step w db coll n c a with
    | none => rw [hst] at he; cases he
    | some c1 =>
      rw [hst] at he
      obtain ⟨seg1, h1, m1⟩ := step_inv h hst
      obtain ⟨seg2, h2, m2⟩ := execActors_inv w n base db coll all rest c1 c2 _ h1 he
      refine ⟨seg1 ++ seg2, by simpa [List.append_assoc] using h2, ?_⟩
      simp only [List.length_cons]
      omega

theorem inserted_le_yielded {n : Nat} {base : State} {db coll : String} {all : List Doc}
    {c : CopyState} {seg : List Event} (h : CopyInv n base db coll all c seg) :
    (insertedDocs seg : Multiset Doc) ≤ (yieldedDocs seg : Multiset Doc) := by
  have h1 := h.conserve
  rw [← h.yielded, ← Multiset.coe_add] at h1
  have h2 := add_right_cancel h1
  rw [← h2]
  rw [add_assoc, add_assoc]
  exact Multiset.le_add_right _ _

theorem terminal_finished {w : World} {n : Nat} {base : State} {db coll : String}
    {all : List Doc} {c : CopyState} {seg : List Event}
    (h : CopyInv n base db coll all c seg) (hn : 0 < n)
    (hterm : ∀ a, step w db coll n c a = none) : c.finished n = true := by
  by_contra hf
  have hne := deadlock_free (w := w) h hn (by simpa using hf)
  obtain ⟨a, ha⟩ := List.exists_mem_of_ne_nil _ hne
  have := (List.mem_filter.mp ha).2
  rw [hterm a] at this
  cases this

theorem getD_of_mem {α : Type} (d : α) : ∀ (l : List α) (a : α), a ∈ l →
    ∃ k, k < l.length ∧ l.getD k d = a
  | [], a, h => by simp at h
  | x :: t, a, h => by
    rcases List.mem_cons.mp h with rfl | h
    · exact ⟨0, by simp, rfl⟩
    · obtain ⟨k, hk, hg⟩ := getD_of_mem d t a h
      exact ⟨k + 1, by simp only [List.length_cons]; omega, by simpa using hg⟩

theorem runCopy_terminal (w : World) (db coll : String) (n : Nat) (c : CopyState)
    (hterm : ∀ a, step w db coll n c a = none) (fuel : Nat) (sched : List Nat) :
    runCopy w db coll n fuel sched c = c := by
  cases fuel with
  | zero => rfl
  | succ fuel =>
    have hen : enabled w db coll n c = [] := by
      unfold enabled
      rw [List.filter_eq_nil_iff]
      intro a _
      rw [hterm a]
      simp
    simp only [runCopy, hen]

theorem step_actor_mem {w : World} {n : Nat} {base : State} {db coll : String}
    {all : List Doc} {c c1 : CopyState} {seg : List Event} {a : Actor}
    (h : CopyInv n base db coll all c seg) (hs : step w db coll n c a = some c1) :
    a ∈ enabled w db coll n c := by
  unfold enabled
  refine List.mem_filter.mpr ⟨?_, by rw [hs]; rfl⟩
  cases a with
  | main => simp [actors]
  | worker id =>
    apply worker_mem_actors
    simp only [step, write_document] at hs
    cases hget : c.workers.get? id with
    | none => rw [hget] at hs; cases hs
    | some ws =>
      have := (List.get?_eq_some.mp hget).1
      rw [h.workers_len] at this
      exact this

/-- Every run of the goroutines that ends with none of them able to move is the run
under some schedule: the schedules cover all interleavings. -/
theorem runCopy_complete (w : World) (n : Nat) (base : State) (db coll : String)
    (all : List Doc) : ∀ (acts : List Actor) (c c2 : CopyState) (seg : List Event),
      CopyInv n base db coll all c seg → execActors w db coll n acts c = some c2 →
      (∀ a, step w db coll n c2 a = none) →
      ∃ sched, ∀ fuel, acts.length ≤ fuel → runCopy w db coll n fuel sched c = c2
  | [], c, c2, seg, _, he, hterm => by
    simp only [execActors, Option.some.injEq] at he
    subst he
    exact ⟨[], fun fuel _ => runCopy_terminal w db coll n c hterm fuel []⟩
  | a :: rest, c, c2, seg, h, he, hterm => by
    simp only [execActors] at he
    cases hst : step w db coll n c a with
    | none => rw [hst] at he; cases he
    | some c1 =>
      rw [hst] at he
      obtain ⟨seg1, h1, _⟩ := step_inv h hst
      obtain ⟨sched, hsched⟩ := runCopy_complete w n base db coll all rest c1 c2 _ h1 he hterm
      have hmem := step_actor_mem h hst
      cases hen : enabled w db coll n c with
      | nil => rw [hen] at hmem; simp at hmem
      | cons a0 as =>
        rw [hen] at hmem
        obtain ⟨k, hk, hg⟩ := getD_of_mem a0 (a0 :: as) a hmem
        refine ⟨k :: sched, fun fuel hfuel => ?_⟩
        cases fuel with
        | zero => simp at hfuel
        | succ fuel =>
          simp only [List.length_cons] at hk hfuel
          simp only [runCopy, hen, List.headD_cons, List.tail_cons, Nat.mod_eq_of_lt hk, hg,
            hst]
          exact hsched fuel (by omega)

/-- Every complete interleaving of the goroutines of a collection copy is the one
`copyCollection` follows under some schedule of the environment. -/
theorem copyCollection_any_interleaving (w : World) (db coll : String) (s : State)
    (acts : List Actor) (c : CopyState)
    (hex : execActors w db coll w.numCPU acts (copyInit w db coll s) = some c)
    (hterm : ∀ a, step w db coll w.numCPU c a = none) :
    ∃ sched, runCopy w db coll w.numCPU ((copyInit w db coll s).measure w.numCPU) sched
      (copyInit w db coll s) = c := by
  obtain ⟨sched, hsched⟩ := runCopy_complete w w.numCPU _ db coll _ acts _ c []
    (copyInit_inv w db coll s) hex hterm
  obtain ⟨_, _, hm⟩ := execActors_inv w w.numCPU _ db coll _ acts _ c []
    (copyInit_inv w db coll s) hex
  exact ⟨sched, hsched _ (by omega)⟩

/-- C5: the copy of a collection under the schedule of the environment ends with the
main goroutine past its wait loop, and the documents on which `Insert` was attempted are,
as a multiset, the documents the cursor yielded, which are all the documents of the
cursor: one attempt each, whatever the inserts answer. The same holds of every order in
which the goroutines can move: no run is longer than the measure of the start state, the
inserted documents are always among the yielded ones, and when no goroutine can move any
more each yielded document has had its one attempt. -/
theorem C5_one_insert_per_document (w : World) (db coll : String) (s : State) :
    (∃ steps, (copyCollection w db coll s).st.trace
        = (copyInit w db coll s).st.trace ++ steps ∧
      (copyCollection w db coll s).finished w.numCPU = true ∧
      (insertedDocs steps).Perm (yieldedDocs steps) ∧
      yieldedDocs steps = w.find s.sync.srcSession db coll) ∧
    (∀ acts c, execActors w db coll w.numCPU acts (copyInit w db coll s) = some c →
      acts.length ≤ (copyInit w db coll s).measure w.numCPU ∧
      ∃ steps, c.st.trace = (copyInit w db coll s).st.trace ++ steps ∧
        (insertedDocs steps : Multiset Doc) ≤ (yieldedDocs steps : Multiset Doc) ∧
        ((∀ a, step w db coll w.numCPU c a = none) →
          c.finished w.numCPU = true ∧ (insertedDocs steps).Perm (yieldedDocs steps) ∧
          yieldedDocs steps = w.find s.sync.srcSession db coll)) := by
  have hn := w.numCPU_pos
  constructor
  · obtain ⟨steps, hinv, hfin⟩ := copyCollection_spec w db coll s
    have hf := hfin hn
    have hc := copy_final hinv hn hf
    refine ⟨steps, hinv.trace_eq, hf, ?_, hc.2.1⟩
    rw [hc.2.1]
    exact hc.1
  · intro acts c hex
    obtain ⟨steps, hinv, hm⟩ := execActors_inv w w.numCPU _ db coll _ acts _ c []
      (copyInit_inv w db coll s) hex
    simp only [List.nil_append] at hinv
    refine ⟨by omega, steps, hinv.trace_eq, inserted_le_yielded hinv, ?_⟩
    intro hterm
    have hf := terminal_finished hinv hn hterm
    have hc := copy_final hinv hn hf
    refine ⟨hf, ?_, hc.2.1⟩
    rw [hc.2.1]
    exact hc.1

/-- C5 in the demo deployment: the insert of document 2 fails, and documents 1, 2, 3 of
`app.users` are each tried once. -/
theorem C5_witness :
    Event.insert 0 2 "app" "users" 2 (some "E11000 duplicate key")
      ∈ (copyCollection demoWorld "app" "users" demoState).st.trace ∧
    insertedDocs (copyCollection demoWorld "app" "users" demoState).st.trace = [1, 2, 3] ∧
    ∃ steps, (copyCollection demoWorld "app" "users" demoState).st.trace
        = (copyInit demoWorld "app" "users" demoState).st.trace ++ steps ∧
      (copyCollection demoWorld "app" "users" demoState).finished demoWorld.numCPU = true ∧
      (insertedDocs steps).Perm (yieldedDocs steps) ∧
      yieldedDocs steps = demoWorld.find demoState.sync.srcSession "app" "users" :=
  ⟨by decide, rfl, (C5_one_insert_per_document demoWorld "app" "users" demoState).1⟩

/-- C6: `NewSynchronizer` returns nil exactly when dialling the source fails, dialling the
destination fails, or `GetOptime` on the source session fails; in particular it returns
nil whenever `GetOptime` fails. On every path all it does is dial and read the optime: no
listing, no index or copy operation, no oplog replayer. A non-nil result holds the
configuration, the two dialled sessions and the optime that `GetOptime` returned. -/
theorem C6_new_synchronizer (w : World) (config : Config) (tr : List Event) :
    ((NewSynchronizer w config tr).1 = none ↔
      ((∃ err, w.dial tr.length config.From = .error err) ∨
        (∃ err, w.dial (tr.length + 1) config.To = .error err) ∨
        (∃ src err, w.dial tr.length config.From = .ok src ∧ w.getOptime src = .error err))) ∧
    (∀ src err, w.dial tr.length config.From = .ok src → w.getOptime src = .error err →
      (NewSynchronizer w config tr).1 = none) ∧
    (∃ seg, (NewSynchronizer w config tr).2 = tr ++ seg ∧
      ∀ e ∈ seg, (∃ addr ok, e = Event.dial addr ok) ∨ (∃ src ok, e = Event.getOptime src ok)) ∧
    (∀ p, (NewSynchronizer w config tr).1 = some p →
      ∃ src dst optime, w.dial tr.length config.From = .ok src ∧
        w.dial (tr.length + 1) config.To = .ok dst ∧ w.getOptime src = .ok optime ∧
        p = { config := config, srcSession := src, dstSession := dst, optime := optime }) := by
  simp only [NewSynchronizer, List.length_append, List.length_singleton]
  cases h1 : w.dial tr.length config.From with
  | error e1 =>
    refine ⟨by simp, by simp, ⟨[Event.dial config.From false], rfl, by simp⟩, by simp⟩
  | ok src =>
    simp only
    cases h2 : w.dial (tr.length + 1) config.To with
    | error e2 =>
      refine ⟨by simp, ?_, ⟨[Event.dial config.From true, Event.dial config.To false],
        by simp, by simp⟩, by simp⟩
      intro src2 err hs _
      rfl
    | ok dst =>
      simp only
      cases h3 : w.getOptime src with
      | error e3 =>
        refine ⟨by simp [h3], ?_, ⟨[Event.dial config.From true, Event.dial config.To true,
          Event.getOptime src false], by simp, by simp⟩, by simp⟩
        intro src2 err hs _
        rfl
      | ok optime =>
        refine ⟨by simp [h3], ?_, ⟨[Event.dial config.From true, Event.dial config.To true,
          Event.getOptime src true], by simp, by simp⟩, ?_⟩
        · intro src2 err hs hg
          simp only [Except.ok.injEq] at hs
          subst hs
          rw [h3] at hg
          cases hg
        · intro p hp
          simp only [Option.some.injEq] at hp
          exact ⟨src, dst, optime, rfl, rfl, h3, hp.symm⟩

/-- C6 in two deployments: an unreachable destination, and the demo deployment. -/
theorem C6_witness :
    ((NewSynchronizer downWorld { demoConfig with To := "nowhere:1" } []).1 = none ↔
      ((∃ err, downWorld.dial 0 "src:27017" = .error err) ∨
        (∃ err, downWorld.dial 1 "nowhere:1" = .error err) ∨
        (∃ src err, downWorld.dial 0 "src:27017" = .ok src ∧
          downWorld.getOptime src = .error err))) ∧
    (NewSynchronizer downWorld { demoConfig with To := "nowhere:1" } []).1 = none ∧
    (NewSynchronizer demoWorld demoConfig []).1 = some demoState.sync :=
  ⟨(C6_new_synchronizer downWorld { demoConfig with To := "nowhere:1" } []).1, rfl, rfl⟩

/-! ## Lemmas: `initialSync`, `oplogSync`, `Run` -/

theorem syncDatabases_bulk (w : World) (s : State) :
    (syncDatabases w s).2.sync = s.sync ∧
    (∃ bulk, (syncDatabases w s).2.trace = s.trace ++ bulk ∧ ∀ e ∈ bulk, e.isBulk = true) ∧
    ((syncDatabases w s).1 = Outcome.noReturn → w.numCPU = 0) := by
  obtain ⟨h1, h2⟩ := syncDatabases_run w s
  refine ⟨h1, ?_, ?_⟩
  · rcases h2 with ⟨err, _, k2, _⟩ | ⟨dbs, seg, _, k2, k3⟩
    · exact ⟨_, k2, by simp [Event.isBulk]⟩
    · refine ⟨_, k2, fun e he => ?_⟩
      rcases List.mem_cons.mp he with rfl | he
      · rfl
      · exact (dbsRun_events k3 e he).1
  · intro ho
    rcases h2 with ⟨err, _, _, k3⟩ | ⟨dbs, seg, _, _, k3⟩
    · rw [k3] at ho; cases ho
    · rw [ho] at k3
      exact (dbsRun_outcome k3).2 rfl

theorem initialSync_run (w : World) (s : State) :
    (initialSync w s).2 = (syncDatabases w s).2 ∧
    ((initialSync w s).1 = Outcome.returned none ∨
      ((initialSync w s).1 = Outcome.noReturn ∧ w.numCPU = 0)) := by
  have hb := (syncDatabases_bulk w s).2.2
  unfold initialSync
  cases hres : syncDatabases w s with
  | mk o s1 =>
    rw [hres] at hb
    cases o with
    | returned r => exact ⟨rfl, Or.inl rfl⟩
    | noReturn => exact ⟨rfl, Or.inr ⟨rfl, hb rfl⟩⟩

theorem oplogSync_run (w : World) (s : State) :
    (oplogSync w s).2.sync = s.sync ∧
    (oplogSync w s).2.trace = s.trace ++ oplogEvents w s.sync ∧
    ((∃ err, (oplogSync w s).1 = Outcome.returned (some err)) ↔
      w.newOplogReplayer s.sync.config.From s.sync.config.To s.sync.optime = false) := by
  unfold oplogSync oplogEvents
  cases hok : w.newOplogReplayer s.sync.config.From s.sync.config.To s.sync.optime with
  | false => simp [State.emit]
  | true =>
    cases hr : w.replayerRunReturns <;> simp [State.emit]

theorem Run_oplogOnly (w : World) (s : State) (h : s.sync.config.OplogOnly = true) :
    Run w s = oplogSync w s := by
  unfold Run
  simp only [h, Bool.not_true, Bool.false_eq_true, if_false]
  cases hres : oplogSync w s with
  | mk o s2 =>
    cases o with
    | noReturn => rfl
    | returned r => cases r <;> rfl

theorem Run_full (w : World) (s : State) (h : s.sync.config.OplogOnly = false)
    (hi : (initialSync w s).1 = Outcome.returned none) :
    Run w s = oplogSync w (initialSync w s).2 := by
  unfold Run
  simp only [h, Bool.not_false, if_true]
  cases hres : initialSync w s with
  | mk o s1 =>
    rw [hres] at hi
    simp only at hi
    subst hi
    simp only
    cases hres2 : oplogSync w s1 with
    | mk o s2 =>
      cases o with
      | noReturn => rfl
      | returned r => cases r <;> rfl

theorem Run_stuck (w : World) (s : State) (h : s.sync.config.OplogOnly = false)
    (hi : (initialSync w s).1 = Outcome.noReturn) :
    Run w s = (Outcome.noReturn, (initialSync w s).2) := by
  unfold Run
  simp only [h, Bool.not_false, if_true]
  cases hres : initialSync w s with
  | mk o s1 =>
    rw [hres] at hi
    simp only at hi
    subst hi
    rfl

/-- C9: with `OplogOnly` set, `Run` does nothing but `oplogSync`: its only events are the
construction of the oplog replayer from the stored optime and, if that succeeded, the run
of the replayer, neither of them a listing, index or copy event. With the flag not set,
`initialSync` carries out `syncDatabases` and returns nil: the events of `Run` are all the
events of `syncDatabases`, each a listing, index or copy event, followed by those of
`oplogSync`. Those events start with the listing of the source databases; when that
listing succeeds, `syncDatabase` has run in full on every listed database other than
`local` and `admin` before the replayer is constructed, and when nothing failed the
namespaces index-replicated and copied are exactly those the specification wants. In both
cases `Run` returns a non-nil error exactly when `NewOplogReplayer` returns nil. -/
theorem C9_oplog_only_skips_bulk_copy (w : World) (s : State) :
    (s.sync.config.OplogOnly = true →
      (Run w s).2.trace = s.trace ++ oplogEvents w s.sync ∧
      ∀ e ∈ oplogEvents w s.sync, e.isBulk = false) ∧
    (s.sync.config.OplogOnly = false →
      (initialSync w s).1 = Outcome.returned none ∧
      (initialSync w s).2 = (syncDatabases w s).2 ∧
      ∃ bulk, (initialSync w s).2.trace = s.trace ++ bulk ∧ (∀ e ∈ bulk, e.isBulk = true) ∧
        (Run w s).2.trace = s.trace ++ bulk ++ oplogEvents w s.sync ∧
        (∃ err rest, bulk = Event.databaseNames s.sync.srcSession err :: rest ∧
          (err = none ↔ ∃ dbnames, w.databaseNames s.sync.srcSession = .ok dbnames)) ∧
        (∀ dbnames, w.databaseNames s.sync.srcSession = .ok dbnames →
          (∀ dbname ∈ dbnames, dbname ≠ "local" → dbname ≠ "admin" →
            ∃ s1, s1.sync = s.sync ∧ s.trace <+: s1.trace ∧
              (syncDatabase w dbname s1).2.trace <+: s.trace ++ bulk) ∧
          ((∀ e ∈ bulk, e.failed = false) →
            indexRuns bulk = specNamespaces dbnames (collectionList w s.sync.srcSession) ∧
            copyRuns bulk = specNamespaces dbnames (collectionList w s.sync.srcSession)))) ∧
    ((∃ err, (Run w s).1 = Outcome.returned (some err)) ↔
      w.newOplogReplayer s.sync.config.From s.sync.config.To s.sync.optime = false) := by
  have hn := w.numCPU_pos
  have hfull : s.sync.config.OplogOnly = false →
      (initialSync w s).1 = Outcome.returned none := by
    intro _
    rcases (initialSync_run w s).2 with h | ⟨_, h⟩
    · exact h
    · omega
  refine ⟨?_, ?_, ?_⟩
  · intro h
    rw [Run_oplogOnly w s h]
    refine ⟨(oplogSync_run w s).2.1, fun e he => ?_⟩
    unfold oplogEvents at he
    rcases List.mem_cons.mp he with rfl | he
    · rfl
    · split at he
      · simp only [List.mem_singleton] at he
        subst he
        rfl
      · simp at he
  · intro h
    have hi := hfull h
    have he := (initialSync_run w s).1
    obtain ⟨hs, hrun⟩ := syncDatabases_run w s
    have hRun : ∀ bulk, (syncDatabases w s).2.trace = s.trace ++ bulk →
        (Run w s).2.trace = s.trace ++ bulk ++ oplogEvents w s.sync := by
      intro bulk hb
      rw [Run_full w s h hi, (oplogSync_run w _).2.1, he, hb, hs]
    refine ⟨hi, he, ?_⟩
    rcases hrun with ⟨err, k1, k2, _⟩ | ⟨dbs, seg, k1, k2, k3⟩
    · refine ⟨[Event.databaseNames s.sync.srcSession (some err)], by rw [he]; exact k2,
        by simp [Event.isBulk], hRun _ k2, ⟨some err, [], rfl, ?_⟩, ?_⟩
      · constructor
        · intro hc; cases hc
        · rintro ⟨dbnames, hd⟩
          rw [k1] at hd; cases hd
      · intro dbnames hd
        rw [k1] at hd; cases hd
    · refine ⟨Event.databaseNames s.sync.srcSession none :: seg, by rw [he]; exact k2,
        ?_, hRun _ k2, ⟨none, seg, rfl, ?_⟩, ?_⟩
      · intro e hmem
        rcases List.mem_cons.mp hmem with rfl | hmem
        · rfl
        · exact (dbsRun_events k3 e hmem).1
      · exact ⟨fun _ => ⟨dbs, k1⟩, fun _ => rfl⟩
      · intro dbnames hd
        rw [k1] at hd
        simp only [Except.ok.injEq] at hd
        subst hd
        constructor
        · intro dbname hmem h1 h2
          obtain ⟨s1, m1, m2, m3⟩ := syncDatabasesLoop_runs_each w hn dbs
            (s.emit (Event.databaseNames s.sync.srcSession none)) dbname hmem h1 h2
          refine ⟨s1, m1, List.IsPrefix.trans ⟨_, rfl⟩ m2, ?_⟩
          rw [← k2]
          unfold syncDatabases
          rw [k1]
          exact m3
        · intro hok
          have := dbsRun_all_ok k3 (fun e hmem => hok e (List.mem_cons_of_mem _ hmem)) hn
          exact ⟨this.2.1, this.2.2⟩
  · cases ho : s.sync.config.OplogOnly with
    | true =>
      rw [Run_oplogOnly w s ho]
      exact (oplogSync_run w s).2.2
    | false =>
      have hi := hfull ho
      have hs := (syncDatabases_bulk w s).1
      have he := (initialSync_run w s).1
      rw [Run_full w s ho hi]
      have := (oplogSync_run w (initialSync w s).2).2.2
      rw [he, hs] at this
      rw [he]
      exact this

/-- C9 in the demo deployment, with `OplogOnly` set and not set: with the flag not set
the trace of `Run` holds the whole bulk copy of `app.users` and `app.logs`. -/
theorem C9_witness :
    ((Run demoWorld { demoState with sync := { demoState.sync with
          config := { demoConfig with OplogOnly := true } } }).2.trace
        = [Event.newOplogReplayer "src:27017" "dst:27017" 6001 true, Event.replayerRun]) ∧
    ((initialSync demoWorld demoState).1 = Outcome.returned none ∧
      (initialSync demoWorld demoState).2 = (syncDatabases demoWorld demoState).2) ∧
    Event.databaseNames 1 none ∈ (Run demoWorld demoState).2.trace ∧
    copyRuns (Run demoWorld demoState).2.trace = [("app", "users"), ("app", "logs")] ∧
    insertedDocs (Run demoWorld demoState).2.trace = [1, 2, 3, 7] :=
  ⟨((C9_oplog_only_skips_bulk_copy demoWorld { demoState with sync := { demoState.sync with
        config := { demoConfig with OplogOnly := true } } }).1 rfl).1,
    ⟨((C9_oplog_only_skips_bulk_copy demoWorld demoState).2.1 rfl).1,
      ((C9_oplog_only_skips_bulk_copy demoWorld demoState).2.1 rfl).2.1⟩,
    by decide, rfl, rfl⟩

theorem newSynchronizer_some (w : World) (config : Config) (tr : List Event) (p : Synchronizer)
    (h : (NewSynchronizer w config tr).1 = some p) :
    ∃ src dst optime, w.dial tr.length config.From = .ok src ∧
      w.dial (tr.length + 1) config.To = .ok dst ∧ w.getOptime src = .ok optime ∧
      p = { config := config, srcSession := src, dstSession := dst, optime := optime } := by
  simp only [NewSynchronizer, List.length_append, List.length_singleton] at h
  cases h1 : w.dial tr.length config.From with
  | error e1 => rw [h1] at h; cases h
  | ok src =>
    rw [h1] at h
    simp only at h
    cases h2 : w.dial (tr.length + 1) config.To with
    | error e2 => rw [h2] at h; cases h
    | ok dst =>
      rw [h2] at h
      simp only at h
      cases h3 : w.getOptime src with
      | error e3 => rw [h3] at h; cases h
      | ok optime =>
        rw [h3] at h
        simp only [Option.some.injEq] at h
        exact ⟨src, dst, optime, rfl, rfl, h3, h.symm⟩

theorem Run_sync (w : World) (s : State) : (Run w s).2.sync = s.sync := by
  have hs := (syncDatabases_bulk w s).1
  have he := (initialSync_run w s).1
  cases ho : s.sync.config.OplogOnly with
  | true =>
    rw [Run_oplogOnly w s ho]
    exact (oplogSync_run w s).1
  | false =>
    rcases (initialSync_run w s).2 with hi | ⟨hi, _⟩
    · rw [Run_full w s ho hi, (oplogSync_run w _).1, he, hs]
    · rw [Run_stuck w s ho hi, he]
      exact hs

theorem Run_trace (w : World) (s : State) :
    ∃ bulk, (∀ e ∈ bulk, e.isBulk = true) ∧
      ((Run w s).2.trace = s.trace ++ bulk ++ oplogEvents w s.sync ∨
        ((Run w s).2.trace = s.trace ++ bulk ∧ w.numCPU = 0 ∧
          s.sync.config.OplogOnly = false)) := by
  obtain ⟨hs, ⟨bulk, hb1, hb2⟩, _⟩ := syncDatabases_bulk w s
  have he := (initialSync_run w s).1
  cases ho : s.sync.config.OplogOnly with
  | true =>
    refine ⟨[], by simp, Or.inl ?_⟩
    rw [Run_oplogOnly w s ho, (oplogSync_run w s).2.1]
    simp
  | false =>
    refine ⟨bulk, hb2, ?_⟩
    rcases (initialSync_run w s).2 with hi | ⟨hi, hn⟩
    · left
      rw [Run_full w s ho hi, (oplogSync_run w _).2.1, he, hb1, hs]
    · right
      rw [Run_stuck w s ho hi, he]
      exact ⟨hb1, hn, rfl⟩

theorem mem_oplogEvents {w : World} {p : Synchronizer} {a b : String} {t : Optime}
    {ok : Bool} (h : Event.newOplogReplayer a b t ok ∈ oplogEvents w p) :
    a = p.config.From ∧ b = p.config.To ∧ t = p.optime := by
  unfold oplogEvents at h
  rcases List.mem_cons.mp h with h | h
  · simp only [Event.newOplogReplayer.injEq] at h
    exact ⟨h.1, h.2.1, h.2.2.1⟩
  · split at h <;> simp at h

/-- C7: for a synchronizer `p` returned by `NewSynchronizer`, the field `optime` is the
value `GetOptime` returned; `initialSync`, `syncDatabases`, `syncDatabase`, a whole
collection copy and every sequence of steps of its goroutines (`write_document`
included), and `Run` itself leave the synchronizer, so its optime, as it was; every
`NewOplogReplayer` call of `Run` is passed the two configured addresses and that optime;
and `Run` always makes that call. -/
theorem C7_checkpoint_untouched (w : World) (config : Config) (tr tr1 : List Event)
    (p : Synchronizer) (s : State)
    (hnew : NewSynchronizer w config tr = (some p, tr1)) (hs : s.sync = p) :
    w.getOptime p.srcSession = .ok p.optime ∧
    (initialSync w s).2.sync = p ∧ (syncDatabases w s).2.sync = p ∧
    (∀ dbname, (syncDatabase w dbname s).2.sync = p) ∧
    (∀ dbname collname, (copyCollection w dbname collname s).st.sync = p) ∧
    (∀ dbname collname acts c,
      execActors w dbname collname w.numCPU acts (copyInit w dbname collname s) = some c →
      c.st.sync = p) ∧
    (Run w s).2.sync = p ∧
    (∀ seg, (Run w s).2.trace = s.trace ++ seg →
      (∀ src dst optime ok, Event.newOplogReplayer src dst optime ok ∈ seg →
        src = config.From ∧ dst = config.To ∧ optime = p.optime ∧
        w.getOptime p.srcSession = .ok optime) ∧
      ∃ ok, Event.newOplogReplayer config.From config.To p.optime ok ∈ seg) := by
  have hp := newSynchronizer_some w config tr p (by rw [hnew])
  obtain ⟨src, dst, optime, _, _, h3, h4⟩ := hp
  have hopt : w.getOptime p.srcSession = .ok p.optime := by rw [h4]; exact h3
  have hcfg : p.config = config := by rw [h4]
  refine ⟨hopt, ?_, ?_, ?_, ?_, ?_, ?_, ?_⟩
  · rw [(initialSync_run w s).1, (syncDatabases_bulk w s).1, hs]
  · rw [(syncDatabases_bulk w s).1, hs]
  · intro dbname
    rw [(syncDatabase_run w dbname s).1, hs]
  · intro dbname collname
    rw [(copyCollection_trace w dbname collname s).1, hs]
  · intro dbname collname acts c hex
    obtain ⟨steps, hinv, _⟩ := execActors_inv w w.numCPU _ dbname collname _ acts _ c []
      (copyInit_inv w dbname collname s) hex
    rw [hinv.sync_eq, (copyInit_trace w dbname collname s).1, hs]
  · rw [Run_sync w s, hs]
  · intro seg hseg
    obtain ⟨bulk, hb, hrun⟩ := Run_trace w s
    constructor
    · intro a b t ok hmem
      have hin : Event.newOplogReplayer a b t ok ∈ oplogEvents w s.sync := by
        rcases hrun with hrun | ⟨hrun, _, _⟩
        · rw [hrun, List.append_assoc] at hseg
          have := List.append_cancel_left hseg
          rw [← this] at hmem
          rcases List.mem_append.mp hmem with hm | hm
          · have := hb _ hm
            cases this
          · exact hm
        · rw [hrun] at hseg
          have := List.append_cancel_left hseg
          rw [← this] at hmem
          have := hb _ hmem
          cases this
      obtain ⟨m1, m2, m3⟩ := mem_oplogEvents hin
      rw [hs] at m1 m2 m3
      rw [hcfg] at m1 m2
      exact ⟨m1, m2, m3, by rw [m3]; exact hopt⟩
    · rcases hrun with hrun | ⟨_, hn, ho⟩
      · rw [hrun, List.append_assoc] at hseg
        have := List.append_cancel_left hseg
        refine ⟨w.newOplogReplayer config.From config.To p.optime, ?_⟩
        rw [← this]
        apply List.mem_append_right
        unfold oplogEvents
        rw [hs, hcfg]
        exact List.mem_cons_self _ _
      · have := w.numCPU_pos
        omega

/-- C7 in the demo deployment: the replayer is constructed with optime 6001. -/
theorem C7_witness :
    demoWorld.getOptime 1 = .ok 6001 ∧
    (Run demoWorld demoState).2.sync = demoState.sync ∧
    ∃ ok, Event.newOplogReplayer "src:27017" "dst:27017" 6001 ok
      ∈ (Run demoWorld demoState).2.trace :=
  ⟨(C7_checkpoint_untouched demoWorld demoConfig [] _ demoState.sync demoState rfl rfl).1,
    (C7_checkpoint_untouched demoWorld demoConfig [] _ demoState.sync demoState
      rfl rfl).2.2.2.2.2.2.1,
    ((C7_checkpoint_untouched demoWorld demoConfig [] _ demoState.sync demoState
      rfl rfl).2.2.2.2.2.2.2 (Run demoWorld demoState).2.trace rfl).2⟩

/-- C8, on the code: when `DatabaseNames` fails, `syncDatabases` returns the error, but
`initialSync` drops it and returns nil, so `Run` goes on to construct and run the oplog
replayer and returns nil. -/
theorem C8_listing_error_dropped :
    (NewSynchronizer downWorld demoConfig []).1 = some demoState.sync ∧
    downWorld.databaseNames demoState.sync.srcSession = .error "EOF" ∧
    (syncDatabases downWorld demoState).1 = Outcome.returned (some "EOF") ∧
    (initialSync downWorld demoState).1 = Outcome.returned none ∧
    Run downWorld demoState
      = (Outcome.returned none,
          { sync := demoState.sync,
            trace := [Event.databaseNames 1 (some "EOF"),
              Event.newOplogReplayer "src:27017" "dst:27017" 6001 true,
              Event.replayerRun] }) :=
  ⟨rfl, rfl, rfl, rfl, rfl⟩

end Sync
